import Mathlib

/-!
Shallow embedding of the balance computation and debt-settlement algorithm of
the fellow-fare-finder repository.

The embedded code lives in two places of the source tree:

* the Finalize page (src/unnamed/part_001): `calculateFinalBalances` and
  `calculateOptimalSettlements`, operating on a trip snapshot whose members
  are plain name strings and whose expenses carry `amount`, `paidBy` and a
  `splitAmong` list of member names (equal split);
* the remote-backend dashboard (src/unnamed/part_002): `calculateMemberSummary`,
  operating on expenses with explicit per-member split shares, guarding every
  map access and silently skipping unknown references.

Currency amounts are embedded as rationals (the source uses JavaScript
numbers); the JavaScript object `summary` keyed by member name is embedded as
a function `String → Option Member`, where `none` models an absent key.  A
JavaScript access `summary[k].field` on an absent key throws a `TypeError`;
the embedding models this abortive behaviour with `Option`: a lookup of an
absent key makes the whole computation return `none`.
-/

namespace FellowFare

/-- A member record of the Finalize page (part_001): name, amounts paid and
owed, and the derived balance. -/
structure Member where
  name : String
  totalPaid : ℚ
  totalOwed : ℚ
  balance : ℚ
deriving DecidableEq, Repr

/-- An expense of the Finalize page snapshot: amount, payer name, and the
list of member names the expense is split among (equal split). -/
structure Expense where
  amount : ℚ
  paidBy : String
  splitAmong : List String
deriving DecidableEq, Repr

/-- A settling transfer: `from_` pays `to_` the stated amount. -/
structure Settlement where
  from_ : String
  to_ : String
  amount : ℚ
deriving DecidableEq, Repr

/-- The JavaScript object `summary` keyed by member name. -/
abbrev Summary := String → Option Member

/-- The member-initialisation loop of `calculateFinalBalances`: after the
`data.members.forEach` loop, `summary` holds a zeroed record exactly for the
names occurring in the member list. -/
def initSummary (members : List String) : Summary :=
  fun n => if n ∈ members then some ⟨n, 0, 0, 0⟩ else none

/-- One JavaScript update `summary[key] = f(summary[key])`; an absent key
aborts (models the `TypeError` on `summary[key].field`). -/
def updateSummary (s : Summary) (key : String) (f : Member → Member) :
    Option Summary :=
  match s key with
  | none => none
  | some mem => some (fun n => if n = key then some (f mem) else s n)

/-- The `expense.splitAmong.forEach` loop: add `splitAmount` to
`summary[member].totalOwed` for each listed member, aborting on an absent
key. -/
def addOwed (splitAmount : ℚ) (s : Summary) : List String → Option Summary
  | [] => some s
  | n :: rest =>
    match updateSummary s n
        (fun m => { m with totalOwed := m.totalOwed + splitAmount }) with
    | none => none
    | some s1 => addOwed splitAmount s1 rest

/-- The body of the `data.expenses.forEach` loop of `calculateFinalBalances`:
credit the payer's `totalPaid`, then spread `amount / splitAmong.length`
over the split members' `totalOwed`. -/
def applyExpense (s : Summary) (e : Expense) : Option Summary :=
  match updateSummary s e.paidBy
      (fun m => { m with totalPaid := m.totalPaid + e.amount }) with
  | none => none
  | some s1 => addOwed (e.amount / (e.splitAmong.length : ℚ)) s1 e.splitAmong

/-- The whole `data.expenses.forEach` loop; a thrown lookup error aborts the
remaining iterations. -/
def applyExpenses (s : Summary) : List Expense → Option Summary
  | [] => some s
  | e :: es =>
    match applyExpense s e with
    | none => none
    | some s1 => applyExpenses s1 es

/-- The final `Object.values(summary).forEach` pass setting
`member.balance = member.totalPaid - member.totalOwed`. -/
def setBalances (s : Summary) : Summary :=
  fun n => (s n).map (fun m => { m with balance := m.totalPaid - m.totalOwed })

/-- First-occurrence deduplication: JavaScript object keys keep the insertion
position of their first assignment, so `Object.values(summary)` lists one
record per distinct member name, in order of first occurrence. -/
def dedupFirst (seen : List String) : List String → List String
  | [] => []
  | n :: rest =>
    if n ∈ seen then dedupFirst seen rest
    else n :: dedupFirst (n :: seen) rest

/-- `calculateFinalBalances` of the Finalize page (part_001): build the
summary, fold the expenses over it, set the balances, and return the record
list in key order.  `none` models the uncaught `TypeError` raised by a lookup
of a member name absent from `summary`. -/
def calculateFinalBalances (members : List String) (expenses : List Expense) :
    Option (List Member) :=
  match applyExpenses (initSummary members) expenses with
  | none => none
  | some s => some ((dedupFirst [] members).filterMap (setBalances s))

/-- The per-member paid total the specification describes: the sum of the
amounts of the expenses whose payer is the member. -/
def totalPaidSpec (expenses : List Expense) (n : String) : ℚ :=
  ((expenses.filter (fun e => e.paidBy = n)).map Expense.amount).sum

/-- The per-member owed total the specification describes: the sum, over the
expenses whose split contains the member, of `amount / (size of the split)`. -/
def totalOwedSpec (expenses : List Expense) (n : String) : ℚ :=
  ((expenses.filter (fun e => n ∈ e.splitAmong)).map
    (fun e => e.amount / (e.splitAmong.length : ℚ))).sum

/-- The settlement tolerance `0.01` of the source. -/
def tolerance : ℚ := 1 / 100

/-- One iteration of the `while` loop of `calculateOptimalSettlements`,
acting on the first debtor `d` (rest `ds`), the first creditor `c` (rest
`cs`) and the settlements accumulated so far: record the transfer
`min(|d.balance|, c.balance)` from `d` to `c`, update both working balances,
and `shift()` whichever of the two drops below the tolerance. -/
def settleStep (d : Member) (ds : List Member) (c : Member)
    (cs : List Member) (acc : List Settlement) :
    List Member × List Member × List Settlement :=
  let amount := min |d.balance| c.balance
  let acc1 := acc ++ [⟨d.name, c.name, amount⟩]
  let d1 := { d with balance := d.balance + amount }
  let c1 := { c with balance := c.balance - amount }
  let debtors1 := if |d1.balance| < tolerance then ds else d1 :: ds
  let creditors1 := if c1.balance < tolerance then cs else c1 :: cs
  (debtors1, creditors1, acc1)

/-- The `while (debtors.length > 0 && creditors.length > 0)` loop as explicit
state passing, with a fuel argument making the recursion structural; the
fuel `calculateOptimalSettlements` passes is shown sufficient because every
iteration shortens `debtors ++ creditors` (see the termination theorem). -/
def settleLoop : Nat → List Member × List Member × List Settlement →
    List Member × List Member × List Settlement
  | 0, st => st
  | fuel + 1, (d :: ds, c :: cs, acc) => settleLoop fuel (settleStep d ds c cs acc)
  | _ + 1, st => st

/-- `calculateOptimalSettlements` of the Finalize page (part_001): filter the
members into debtors (`balance < 0`) and creditors (`balance > 0`) — the
`.map(m => ({...m}))` shallow copies are identities on immutable values, and
are modelled explicitly in the heap embedding below — then run the matching
loop and return the settlements. -/
def calculateOptimalSettlements (members : List Member) : List Settlement :=
  let debtors := members.filter (fun m => m.balance < 0)
  let creditors := members.filter (fun m => 0 < m.balance)
  (settleLoop (debtors.length + creditors.length) (debtors, creditors, [])).2.2

/-- The net effect of a transfer list on the member named `n`, with the
orientation the source's working balances use: a transfer adds its amount to
the payer's balance and subtracts it from the receiver's. -/
def netTransfers (ts : List Settlement) (n : String) : ℚ :=
  (ts.map (fun t =>
    (if t.from_ = n then t.amount else 0) - (if t.to_ = n then t.amount else 0))).sum

/-- The literal application the claim describes: fold the transfers over a
starting balance `b`, subtracting each amount from the payer's balance and
adding it to the receiver's. -/
def litApply (ts : List Settlement) (n : String) (b : ℚ) : ℚ :=
  ts.foldl (fun acc t =>
    acc - (if t.from_ = n then t.amount else 0) + (if t.to_ = n then t.amount else 0)) b

/-! ### The remote-backend variant (part_002) -/

/-- A `paid`/`owed` pair of the part_002 summary. -/
structure PaidOwed where
  paid : ℚ
  owed : ℚ
deriving DecidableEq, Repr

/-- An explicit split share of a part_002 expense. -/
structure ExpenseSplit where
  user_id : String
  amount : ℚ
deriving DecidableEq, Repr

/-- A part_002 expense: amount, payer id, explicit split shares.  The
source's `expense.splits` may be absent (`if (expense.splits)`); an absent
field behaves like the empty list and is embedded as such. -/
structure ExpenseData where
  amount : ℚ
  paid_by : String
  splits : List ExpenseSplit
deriving DecidableEq, Repr

/-- A part_002 trip member: user id and the optional
`profiles?.display_name`. -/
structure MemberData where
  user_id : String
  display_name : Option String
deriving DecidableEq, Repr

/-- The member-initialisation loop of part_002's `calculateMemberSummary`:
a member enters the summary only when a display name is present. -/
def initSummary2 (members : List MemberData) : String → Option PaidOwed :=
  fun uid =>
    if members.any (fun m => m.user_id = uid && m.display_name.isSome)
    then some ⟨0, 0⟩ else none

/-- The guarded update `if (summary[k]) summary[k].field += v` of part_002:
an absent key is silently skipped, never an error. -/
def guardedAdd (s : String → Option PaidOwed) (key : String)
    (f : PaidOwed → PaidOwed) : String → Option PaidOwed :=
  fun n => if n = key then (s key).map f else s n

/-- The split loop of part_002: add each share to its member's `owed`,
skipping unknown members. -/
def addSplits (s : String → Option PaidOwed) :
    List ExpenseSplit → String → Option PaidOwed
  | [] => s
  | sp :: rest =>
    addSplits (guardedAdd s sp.user_id (fun po => { po with owed := po.owed + sp.amount })) rest

/-- `calculateMemberSummary` of part_002: fold the expenses over the guarded
summary; unknown payer or split references are silently dropped. -/
def calculateMemberSummary (expenses : List ExpenseData)
    (members : List MemberData) : String → Option PaidOwed :=
  expenses.foldl
    (fun s e =>
      addSplits (guardedAdd s e.paid_by (fun po => { po with paid := po.paid + e.amount }))
        e.splits)
    (initSummary2 members)

/-! ### Heap embedding of the settlement loop (part_001)

The loop of the source mutates `Member` objects in place; whether the
objects it mutates are the caller's or fresh shallow copies (`{...m}`) is
exactly the frame question of the implicit claim.  The embedding below makes
the JavaScript object references explicit: a heap maps reference numbers to
records, `alloc` models object literal creation, and the loop mutates the
heap at the references held in its two working arrays. -/

/-- A heap of member objects: a store from references to records and the
next fresh reference. -/
structure Heap where
  store : Nat → Member
  next : Nat

/-- Allocate a fresh object holding `m`. -/
def alloc (h : Heap) (m : Member) : Nat × Heap :=
  (h.next, ⟨fun i => if i = h.next then m else h.store i, h.next + 1⟩)

/-- The `.map(m => ({...m}))` pass: allocate a shallow copy of every object
in the list, returning the fresh references. -/
def copyAll (h : Heap) : List Nat → List Nat × Heap
  | [] => ([], h)
  | r :: rs =>
    let (r1, h1) := alloc h (h.store r)
    let (rs1, h2) := copyAll h1 rs
    (r1 :: rs1, h2)

/-- In-place mutation of the object at reference `r`. -/
def heapWrite (h : Heap) (r : Nat) (m : Member) : Heap :=
  ⟨fun i => if i = r then m else h.store i, h.next⟩

/-- The settlement `while` loop over the heap: the working arrays hold
references, and the balance updates mutate the referenced objects. -/
def settleLoopH : Nat → Heap → List Nat → List Nat → List Settlement →
    List Settlement × Heap
  | 0, h, _, _, acc => (acc, h)
  | _ + 1, h, [], _, acc => (acc, h)
  | _ + 1, h, _ :: _, [], acc => (acc, h)
  | fuel + 1, h, dr :: ds, cr :: cs, acc =>
    let d := h.store dr
    let c := h.store cr
    let amount := min |d.balance| c.balance
    let acc1 := acc ++ [⟨d.name, c.name, amount⟩]
    let h1 := heapWrite h dr { d with balance := d.balance + amount }
    let h2 := heapWrite h1 cr
      { h1.store cr with balance := (h1.store cr).balance - amount }
    let debtors1 := if |(h2.store dr).balance| < tolerance then ds else dr :: ds
    let creditors1 := if (h2.store cr).balance < tolerance then cs else cr :: cs
    settleLoopH fuel h2 debtors1 creditors1 acc1

/-- `calculateOptimalSettlements` over the heap: filter the caller's member
references by balance sign, allocate shallow copies of the filtered objects
(the `{...m}` spreads), and run the loop on the copies. -/
def calculateOptimalSettlementsH (h : Heap) (memberRefs : List Nat) :
    List Settlement × Heap :=
  let debtorRefs := memberRefs.filter (fun r => (h.store r).balance < 0)
  let (debtorCopies, h1) := copyAll h debtorRefs
  let creditorRefs := memberRefs.filter (fun r => 0 < (h1.store r).balance)
  let (creditorCopies, h2) := copyAll h1 creditorRefs
  settleLoopH (debtorCopies.length + creditorCopies.length) h2 debtorCopies
    creditorCopies []

/-! ### Lemmas about the balance computation -/

/-- The owed total the code actually accumulates: one `splitAmount` per
occurrence of the name in the split list (so a duplicated name is charged
once per occurrence). -/
def totalOwedCnt (expenses : List Expense) (n : String) : ℚ :=
  (expenses.map
    (fun e => (e.splitAmong.count n : ℚ) * (e.amount / (e.splitAmong.length : ℚ)))).sum

/-- Invariant of the settlement matching loop, relative to the original
member list `M` and the transfers `ts` emitted so far: the working debtors
`ds` are strictly negative and the working creditors `cs` strictly positive;
their names are distinct and drawn from `M`; emitted transfers name members
of `M`; a member absent from both working lists has its net residual
(original balance plus the net effect of the transfers so far) within the
tolerance of zero; and a member present in a working list has its net
residual equal to that entry's working balance. -/
def SettleInv (M : List Member) (ds cs : List Member) (ts : List Settlement) : Prop :=
  (∀ e ∈ ds, e.balance < 0) ∧
  (∀ e ∈ cs, 0 < e.balance) ∧
  ((ds ++ cs).map Member.name).Nodup ∧
  (∀ e ∈ ds ++ cs, e.name ∈ M.map Member.name) ∧
  (∀ t ∈ ts, t.from_ ∈ M.map Member.name ∧ t.to_ ∈ M.map Member.name) ∧
  (∀ m ∈ M, (∀ e ∈ ds ++ cs, e.name ≠ m.name) →
    |m.balance + netTransfers ts m.name| < tolerance) ∧
  (∀ m ∈ M, ∀ e ∈ ds ++ cs, e.name = m.name →
    m.balance + netTransfers ts m.name = e.balance)

lemma totalPaidSpec_nil (n : String) : totalPaidSpec [] n = 0 := rfl

lemma totalPaidSpec_cons (e : Expense) (es : List Expense) (n : String) :
    totalPaidSpec (e :: es) n =
      (if e.paidBy = n then e.amount else 0) + totalPaidSpec es n := by
  by_cases h : e.paidBy = n <;>
    simp [totalPaidSpec, List.filter_cons, h]

lemma totalOwedCnt_nil (n : String) : totalOwedCnt [] n = 0 := rfl

lemma totalOwedCnt_cons (e : Expense) (es : List Expense) (n : String) :
    totalOwedCnt (e :: es) n =
      (e.splitAmong.count n : ℚ) * (e.amount / (e.splitAmong.length : ℚ)) +
        totalOwedCnt es n := by
  simp [totalOwedCnt]

/-- With duplicate-free split lists the accumulated owed total is the
specification's per-expense share sum. -/
lemma totalOwedCnt_eq_spec (es : List Expense) (n : String)
    (h : ∀ e ∈ es, e.splitAmong.Nodup) :
    totalOwedCnt es n = totalOwedSpec es n := by
  induction es with
  | nil => rfl
  | cons e es ih =>
    have hnd := h e (List.mem_cons_self e es)
    have hrest : ∀ e' ∈ es, e'.splitAmong.Nodup :=
      fun e' he' => h e' (List.mem_cons_of_mem e he')
    rw [totalOwedCnt_cons, ih hrest]
    by_cases hm : n ∈ e.splitAmong
    · have hc : e.splitAmong.count n = 1 :=
        List.count_eq_one_of_mem hnd hm
      simp [totalOwedSpec, List.filter_cons, hm, hc]
    · have hc : e.splitAmong.count n = 0 := List.count_eq_zero_of_not_mem hm
      simp [totalOwedSpec, List.filter_cons, hm, hc]

lemma addOwed_ok (sa : ℚ) :
    ∀ (names : List String) (s : Summary),
      (∀ n ∈ names, (s n).isSome) →
      ∃ s', addOwed sa s names = some s' ∧
        ∀ n : String, s' n = (s n).map
          (fun m => { m with totalOwed := m.totalOwed + (names.count n : ℚ) * sa }) := by
  intro names
  induction names with
  | nil =>
    intro s _
    refine ⟨s, rfl, fun n => ?_⟩
    cases h : s n with
    | none => rfl
    | some m => simp [h]
  | cons n0 rest ih =>
    intro s hs
    have h0 : (s n0).isSome := hs n0 (List.mem_cons_self n0 rest)
    cases hmem : s n0 with
    | none => rw [hmem] at h0; exact absurd h0 (by simp)
    | some mem =>
      set s1 : Summary := fun n =>
        if n = n0 then some { mem with totalOwed := mem.totalOwed + sa } else s n with hs1
      have hstep : addOwed sa s (n0 :: rest) = addOwed sa s1 rest := by
        simp [addOwed, updateSummary, hmem, hs1]
      have hs1some : ∀ n ∈ rest, (s1 n).isSome := by
        intro n hn
        by_cases hn0 : n = n0
        · simp [hs1, hn0]
        · simpa [hs1, hn0] using hs n (List.mem_cons_of_mem n0 hn)
      obtain ⟨s', hrun, hval⟩ := ih s1 hs1some
      refine ⟨s', by rw [hstep, hrun], fun n => ?_⟩
      by_cases hn0 : n = n0
      · subst hn0
        rw [hval n, hmem]
        have : s1 n = some { mem with totalOwed := mem.totalOwed + sa } := by
          simp [hs1]
        rw [this]
        simp only [Option.map_some', List.count_cons_self]
        congr 1
        simp only [Member.mk.injEq, true_and, and_true]
        push_cast
        ring
      · rw [hval n]
        have : s1 n = s n := by simp [hs1, hn0]
        rw [this]
        have hcnt : (n0 :: rest).count n = rest.count n := by
          simp [List.count_cons, hn0]
        rw [hcnt]

lemma applyExpense_ok (e : Expense) (s : Summary)
    (hp : (s e.paidBy).isSome)
    (hs : ∀ n ∈ e.splitAmong, (s n).isSome) :
    ∃ s', applyExpense s e = some s' ∧
      ∀ n : String, s' n = (s n).map (fun m =>
        { m with
          totalPaid := m.totalPaid + (if e.paidBy = n then e.amount else 0),
          totalOwed := m.totalOwed +
            (e.splitAmong.count n : ℚ) * (e.amount / (e.splitAmong.length : ℚ)) }) := by
  cases hmem : s e.paidBy with
  | none => rw [hmem] at hp; exact absurd hp (by simp)
  | some mem =>
    set s1 : Summary := fun n =>
      if n = e.paidBy then some { mem with totalPaid := mem.totalPaid + e.amount }
      else s n with hs1
    have hstep : applyExpense s e =
        addOwed (e.amount / (e.splitAmong.length : ℚ)) s1 e.splitAmong := by
      simp [applyExpense, updateSummary, hmem, hs1]
    have hs1some : ∀ n ∈ e.splitAmong, (s1 n).isSome := by
      intro n hn
      by_cases hn0 : n = e.paidBy
      · simp [hs1, hn0]
      · simpa [hs1, hn0] using hs n hn
    obtain ⟨s', hrun, hval⟩ :=
      addOwed_ok (e.amount / (e.splitAmong.length : ℚ)) e.splitAmong s1 hs1some
    refine ⟨s', by rw [hstep, hrun], fun n => ?_⟩
    rw [hval n]
    by_cases hn0 : n = e.paidBy
    · have h1 : s1 n = some { mem with totalPaid := mem.totalPaid + e.amount } := by
        simp [hs1, hn0]
      rw [h1, hn0, hmem]
      simp
    · have h1 : s1 n = s n := by simp [hs1, hn0]
      rw [h1]
      cases s n with
      | none => rfl
      | some m =>
        simp only [Option.map_some']
        congr 1
        have h2 : ¬ e.paidBy = n := fun h => hn0 h.symm
        simp [h2]

lemma applyExpenses_ok (members : List String) :
    ∀ (es : List Expense) (s : Summary),
      (∀ n : String, (s n).isSome ↔ n ∈ members) →
      (∀ e ∈ es, e.paidBy ∈ members ∧ ∀ n ∈ e.splitAmong, n ∈ members) →
      ∃ s', applyExpenses s es = some s' ∧
        ∀ n : String, s' n = (s n).map (fun m =>
          { m with
            totalPaid := m.totalPaid + totalPaidSpec es n,
            totalOwed := m.totalOwed + totalOwedCnt es n }) := by
  intro es
  induction es with
  | nil =>
    intro s _ _
    refine ⟨s, rfl, fun n => ?_⟩
    cases h : s n with
    | none => rfl
    | some m => simp [h, totalPaidSpec_nil, totalOwedCnt_nil]
  | cons e es ih =>
    intro s hdom hwf
    obtain ⟨hpay, hsplit⟩ := hwf e (List.mem_cons_self e es)
    have hp : (s e.paidBy).isSome := (hdom e.paidBy).mpr hpay
    have hsp : ∀ n ∈ e.splitAmong, (s n).isSome :=
      fun n hn => (hdom n).mpr (hsplit n hn)
    obtain ⟨s1, hrun1, hval1⟩ := applyExpense_ok e s hp hsp
    have hdom1 : ∀ n : String, (s1 n).isSome ↔ n ∈ members := by
      intro n
      rw [hval1 n, Option.isSome_map']
      exact hdom n
    have hwf1 : ∀ e' ∈ es, e'.paidBy ∈ members ∧ ∀ n ∈ e'.splitAmong, n ∈ members :=
      fun e' he' => hwf e' (List.mem_cons_of_mem e he')
    obtain ⟨s', hrun, hval⟩ := ih s1 hdom1 hwf1
    have hstep : applyExpenses s (e :: es) = applyExpenses s1 es := by
      simp [applyExpenses, hrun1]
    refine ⟨s', by rw [hstep, hrun], fun n => ?_⟩
    rw [hval n, hval1 n]
    cases hsn : s n with
    | none => rfl
    | some m =>
      simp only [Option.map_some']
      congr 1
      simp only [Member.mk.injEq, true_and, and_true]
      rw [totalPaidSpec_cons, totalOwedCnt_cons]
      constructor <;> ring

lemma dedupFirst_eq_self :
    ∀ (l : List String) (seen : List String), l.Nodup →
      (∀ x ∈ l, x ∉ seen) → dedupFirst seen l = l := by
  intro l
  induction l with
  | nil => intro seen _ _; rfl
  | cons n rest ih =>
    intro seen hnd hsub
    have hn : n ∉ seen := hsub n (List.mem_cons_self n rest)
    have hrest : ∀ x ∈ rest, x ∉ n :: seen := by
      intro x hx
      simp only [List.mem_cons, not_or]
      exact ⟨fun h => (List.nodup_cons.mp hnd).1 (h ▸ hx),
        hsub x (List.mem_cons_of_mem n hx)⟩
    simp [dedupFirst, hn, ih (n :: seen) (List.nodup_cons.mp hnd).2 hrest]

lemma filterMap_eq_map_of_some {α β : Type} :
    ∀ (l : List α) (f : α → Option β) (g : α → β),
      (∀ x ∈ l, f x = some (g x)) → l.filterMap f = l.map g := by
  intro l
  induction l with
  | nil => intro f g _; rfl
  | cons a rest ih =>
    intro f g h
    rw [List.filterMap_cons, h a (List.mem_cons_self a rest), List.map_cons,
      ih f g (fun x hx => h x (List.mem_cons_of_mem a hx))]

/-- The computed-balance formula: on a well-formed snapshot over distinct
member names, `calculateFinalBalances` returns one record per member, in
member-list order, with the paid total, the per-occurrence owed total and
their difference as balance. -/
lemma calculateFinalBalances_eq (members : List String) (expenses : List Expense)
    (hnd : members.Nodup)
    (hwf : ∀ e ∈ expenses, e.paidBy ∈ members ∧ ∀ n ∈ e.splitAmong, n ∈ members) :
    calculateFinalBalances members expenses = some (members.map (fun n =>
      ⟨n, totalPaidSpec expenses n, totalOwedCnt expenses n,
        totalPaidSpec expenses n - totalOwedCnt expenses n⟩)) := by
  have hdom : ∀ n : String, ((initSummary members) n).isSome ↔ n ∈ members := by
    intro n
    by_cases h : n ∈ members <;> simp [initSummary, h]
  obtain ⟨s', hrun, hval⟩ := applyExpenses_ok members expenses (initSummary members) hdom hwf
  have hsval : ∀ n ∈ members, s' n =
      some ⟨n, totalPaidSpec expenses n, totalOwedCnt expenses n, 0⟩ := by
    intro n hn
    rw [hval n]
    simp [initSummary, hn]
  have hdedup : dedupFirst [] members = members :=
    dedupFirst_eq_self members [] hnd (by simp)
  have hmap : members.filterMap (setBalances s') = members.map (fun n =>
      ⟨n, totalPaidSpec expenses n, totalOwedCnt expenses n,
        totalPaidSpec expenses n - totalOwedCnt expenses n⟩) := by
    apply filterMap_eq_map_of_some
    intro n hn
    simp [setBalances, hsval n hn]
  simp [calculateFinalBalances, hrun, hdedup, hmap]

/-! ### Elementary list-sum helpers -/

lemma map_congr_mem {α β : Type} :
    ∀ (l : List α) (f g : α → β), (∀ x ∈ l, f x = g x) → l.map f = l.map g := by
  intro l
  induction l with
  | nil => intro f g _; rfl
  | cons a rest ih =>
    intro f g h
    rw [List.map_cons, List.map_cons, h a (List.mem_cons_self a rest),
      ih f g (fun x hx => h x (List.mem_cons_of_mem a hx))]

lemma sum_map_add {α : Type} (f g : α → ℚ) :
    ∀ l : List α, (l.map (fun x => f x + g x)).sum = (l.map f).sum + (l.map g).sum := by
  intro l
  induction l with
  | nil => simp
  | cons a rest ih => simp [ih]; ring

lemma sum_map_sub {α : Type} (f g : α → ℚ) :
    ∀ l : List α, (l.map (fun x => f x - g x)).sum = (l.map f).sum - (l.map g).sum := by
  intro l
  induction l with
  | nil => simp
  | cons a rest ih => simp [ih]; ring

lemma sum_map_mul_right {α : Type} (f : α → ℚ) (c : ℚ) :
    ∀ l : List α, (l.map (fun x => f x * c)).sum = (l.map f).sum * c := by
  intro l
  induction l with
  | nil => simp
  | cons a rest ih => simp [ih]; ring

lemma sum_if_key_zero {α β : Type} [DecidableEq β] (f : α → β) (c : ℚ) :
    ∀ (l : List α) (x : β), x ∉ l.map f →
      (l.map (fun a => if f a = x then c else 0)).sum = 0 := by
  intro l
  induction l with
  | nil => intro x _; rfl
  | cons a rest ih =>
    intro x hx
    simp only [List.map_cons, List.mem_cons, not_or] at hx
    have hfa : ¬ f a = x := fun h => hx.1 h.symm
    simp [List.map_cons, hfa, ih x hx.2]

lemma sum_if_key {α β : Type} [DecidableEq β] (f : α → β) (c : ℚ) :
    ∀ (l : List α) (x : β), (l.map f).Nodup → x ∈ l.map f →
      (l.map (fun a => if f a = x then c else 0)).sum = c := by
  intro l
  induction l with
  | nil => intro x _ hx; simp at hx
  | cons a rest ih =>
    intro x hnd hx
    rw [List.map_cons] at hnd hx
    rcases List.mem_cons.mp hx with h | h
    · rw [List.map_cons, List.sum_cons, if_pos h.symm,
        sum_if_key_zero f c rest x (h ▸ (List.nodup_cons.mp hnd).1)]
      ring
    · have hne : ¬ f a = x := by
        intro hcontra
        exact (List.nodup_cons.mp hnd).1 (hcontra ▸ h)
      rw [List.map_cons, List.sum_cons, if_neg hne,
        ih x (List.nodup_cons.mp hnd).2 h]
      ring

lemma sum_count_cast (members : List String) (hnd : members.Nodup) :
    ∀ split : List String, (∀ x ∈ split, x ∈ members) →
      (members.map (fun n => (split.count n : ℚ))).sum = (split.length : ℚ) := by
  intro split
  induction split with
  | nil => intro _; simp
  | cons x rest ih =>
    intro hsub
    have hx : x ∈ members := hsub x (List.mem_cons_self x rest)
    have hrest : ∀ y ∈ rest, y ∈ members :=
      fun y hy => hsub y (List.mem_cons_of_mem x hy)
    have hpt : ∀ n ∈ members, ((x :: rest).count n : ℚ) =
        (rest.count n : ℚ) + (if n = x then 1 else 0) := by
      intro n _
      by_cases h : n = x <;> simp [List.count_cons, h]
    rw [map_congr_mem members _ _ hpt, sum_map_add, ih hrest]
    have hid : members.map (fun n : String => n) = members := List.map_id members
    have : (members.map (fun n => if n = x then (1 : ℚ) else 0)).sum = 1 := by
      have := sum_if_key (fun n : String => n) 1 members x (by rwa [hid]) (by rwa [hid])
      exact this
    rw [this]
    simp only [List.length_cons]
    push_cast
    ring

/-! ### The zero-sum consequence -/

lemma sum_totalPaid (members : List String) (hnd : members.Nodup) :
    ∀ es : List Expense, (∀ e ∈ es, e.paidBy ∈ members) →
      (members.map (fun n => totalPaidSpec es n)).sum = (es.map Expense.amount).sum := by
  intro es
  induction es with
  | nil => intro _; simp [totalPaidSpec_nil]
  | cons e rest ih =>
    intro h
    have hpt : ∀ n ∈ members, totalPaidSpec (e :: rest) n =
        (if n = e.paidBy then e.amount else 0) + totalPaidSpec rest n := by
      intro n _
      rw [totalPaidSpec_cons]
      by_cases hn : e.paidBy = n
      · simp [hn]
      · have : ¬ n = e.paidBy := fun hc => hn hc.symm
        simp [hn, this]
    rw [map_congr_mem members _ _ hpt, sum_map_add,
      ih (fun e' he' => h e' (List.mem_cons_of_mem e he'))]
    have hid : members.map (fun n : String => n) = members := List.map_id members
    have hone : (members.map (fun n => if n = e.paidBy then e.amount else 0)).sum
        = e.amount := by
      have := sum_if_key (fun n : String => n) e.amount members e.paidBy
        (by rwa [hid]) (by rw [hid]; exact h e (List.mem_cons_self e rest))
      exact this
    rw [hone, List.map_cons, List.sum_cons]

lemma sum_totalOwedCnt (members : List String) (hnd : members.Nodup) :
    ∀ es : List Expense,
      (∀ e ∈ es, (∀ n ∈ e.splitAmong, n ∈ members) ∧ e.splitAmong ≠ []) →
      (members.map (fun n => totalOwedCnt es n)).sum = (es.map Expense.amount).sum := by
  intro es
  induction es with
  | nil => intro _; simp [totalOwedCnt_nil]
  | cons e rest ih =>
    intro h
    obtain ⟨hsub, hne⟩ := h e (List.mem_cons_self e rest)
    have hpt : ∀ n ∈ members, totalOwedCnt (e :: rest) n =
        (e.splitAmong.count n : ℚ) * (e.amount / (e.splitAmong.length : ℚ)) +
          totalOwedCnt rest n := by
      intro n _
      exact totalOwedCnt_cons e rest n
    rw [map_congr_mem members _ _ hpt, sum_map_add,
      ih (fun e' he' => h e' (List.mem_cons_of_mem e he'))]
    have hfac : (members.map (fun n =>
        (e.splitAmong.count n : ℚ) * (e.amount / (e.splitAmong.length : ℚ)))).sum =
        (members.map (fun n => (e.splitAmong.count n : ℚ))).sum *
          (e.amount / (e.splitAmong.length : ℚ)) :=
      sum_map_mul_right (fun n => (e.splitAmong.count n : ℚ))
        (e.amount / (e.splitAmong.length : ℚ)) members
    have hlen : ((e.splitAmong.length : ℚ)) ≠ 0 := by
      have : e.splitAmong.length ≠ 0 := fun hc => hne (List.eq_nil_of_length_eq_zero hc)
      exact_mod_cast this
    rw [hfac, sum_count_cast members hnd e.splitAmong hsub,
      mul_div_assoc']
    rw [mul_comm, mul_div_assoc, div_self hlen, mul_one, List.map_cons, List.sum_cons]

/-! ### Failure behaviour of the balance computation -/

lemma addOwed_none (sa : ℚ) :
    ∀ (names : List String) (s : Summary), (∃ n ∈ names, s n = none) →
      addOwed sa s names = none := by
  intro names
  induction names with
  | nil => intro s h; obtain ⟨n, hn, _⟩ := h; simp at hn
  | cons n0 rest ih =>
    intro s h
    obtain ⟨n, hn, hnone⟩ := h
    cases hmem : s n0 with
    | none => simp [addOwed, updateSummary, hmem]
    | some mem =>
      have hn0 : n ≠ n0 := fun hc => by rw [hc, hmem] at hnone; exact Option.noConfusion hnone
      have hnrest : n ∈ rest := by
        rcases List.mem_cons.mp hn with h | h
        · exact absurd h hn0
        · exact h
      simp only [addOwed, updateSummary, hmem]
      exact ih _ ⟨n, hnrest, by simp [hn0, hnone]⟩

lemma applyExpense_none (members : List String) (e : Expense) (s : Summary)
    (hdom : ∀ n : String, (s n).isSome ↔ n ∈ members)
    (hbad : e.paidBy ∉ members ∨ ∃ n ∈ e.splitAmong, n ∉ members) :
    applyExpense s e = none := by
  rcases hbad with hbad | hbad
  · have : s e.paidBy = none := by
      cases h : s e.paidBy with
      | none => rfl
      | some m => exact absurd ((hdom e.paidBy).mp (by simp [h])) hbad
    simp [applyExpense, updateSummary, this]
  · obtain ⟨n, hn, hnmem⟩ := hbad
    cases hmem : s e.paidBy with
    | none => simp [applyExpense, updateSummary, hmem]
    | some mem =>
      simp only [applyExpense, updateSummary, hmem]
      apply addOwed_none
      refine ⟨n, hn, ?_⟩
      by_cases hn0 : n = e.paidBy
      · exact absurd ((hdom n).mp (by rw [hn0, hmem]; rfl)) hnmem
      · simp only [if_neg hn0]
        cases h : s n with
        | none => rfl
        | some m => exact absurd ((hdom n).mp (by simp [h])) hnmem

lemma applyExpenses_none (members : List String) :
    ∀ (es : List Expense) (s : Summary),
      (∀ n : String, (s n).isSome ↔ n ∈ members) →
      (∃ e ∈ es, e.paidBy ∉ members ∨ ∃ n ∈ e.splitAmong, n ∉ members) →
      applyExpenses s es = none := by
  intro es
  induction es with
  | nil => intro s _ h; obtain ⟨e, he, _⟩ := h; simp at he
  | cons e rest ih =>
    intro s hdom h
    obtain ⟨e', he', hbad⟩ := h
    rcases List.mem_cons.mp he' with heq | hrest
    · subst heq
      simp [applyExpenses, applyExpense_none members e' s hdom hbad]
    · by_cases hgood : e.paidBy ∈ members ∧ ∀ n ∈ e.splitAmong, n ∈ members
      · obtain ⟨s1, hrun1, hval1⟩ := applyExpense_ok e s
          ((hdom e.paidBy).mpr hgood.1) (fun n hn => (hdom n).mpr (hgood.2 n hn))
        have hdom1 : ∀ n : String, (s1 n).isSome ↔ n ∈ members := by
          intro n
          rw [hval1 n, Option.isSome_map']
          exact hdom n
        simp only [applyExpenses, hrun1]
        exact ih s1 hdom1 ⟨e', hrest, hbad⟩
      · have hbad' : e.paidBy ∉ members ∨ ∃ n ∈ e.splitAmong, n ∉ members := by
          by_cases hp : e.paidBy ∈ members
          · right
            by_contra hc
            push_neg at hc
            exact hgood ⟨hp, hc⟩
          · exact Or.inl hp
        simp [applyExpenses, applyExpense_none members e s hdom hbad']

/-! ### Claims about the balance computation -/

/-- Claim C1: for every snapshot over duplicate-free member names whose
expenses each name a payer in the member set and a non-empty duplicate-free
split list of members, the balance computation returns, for each member in
order, `totalPaid` = the sum of amounts of the expenses the member paid,
`totalOwed` = the sum of `amount / (split size)` over the expenses whose
split contains the member, and `balance = totalPaid - totalOwed`. -/
theorem C1_balance_formula (members : List String) (expenses : List Expense)
    (hnd : members.Nodup)
    (hwf : ∀ e ∈ expenses, e.paidBy ∈ members ∧ (∀ n ∈ e.splitAmong, n ∈ members) ∧
      e.splitAmong ≠ [] ∧ e.splitAmong.Nodup) :
    calculateFinalBalances members expenses = some (members.map (fun n =>
      ⟨n, totalPaidSpec expenses n, totalOwedSpec expenses n,
        totalPaidSpec expenses n - totalOwedSpec expenses n⟩)) := by
  rw [calculateFinalBalances_eq members expenses hnd
    (fun e he => ⟨(hwf e he).1, (hwf e he).2.1⟩)]
  congr 1
  apply map_congr_mem
  intro n _
  rw [totalOwedCnt_eq_spec expenses n (fun e he => (hwf e he).2.2.2)]

/-- Witness for C1: the spec's Scenario A (90 paid by alice, split equally
among three members). -/
theorem C1_balance_formula_witness :
    calculateFinalBalances ["alice", "bob", "carol"]
        [⟨90, "alice", ["alice", "bob", "carol"]⟩] =
      some ((["alice", "bob", "carol"]).map (fun n =>
        ⟨n, totalPaidSpec [⟨90, "alice", ["alice", "bob", "carol"]⟩] n,
          totalOwedSpec [⟨90, "alice", ["alice", "bob", "carol"]⟩] n,
          totalPaidSpec [⟨90, "alice", ["alice", "bob", "carol"]⟩] n -
            totalOwedSpec [⟨90, "alice", ["alice", "bob", "carol"]⟩] n⟩)) :=
  C1_balance_formula _ _ (by decide) (by decide)

/-- Claim C3: on a snapshot whose expenses each have a payer in the member
set and a non-empty split of members — so that the equal-split shares sum
exactly to the expense amount — the computed balances sum to zero exactly
(the computation is carried out in exact rational arithmetic here). -/
theorem C3_zero_sum (members : List String) (expenses : List Expense)
    (hnd : members.Nodup)
    (hwf : ∀ e ∈ expenses, e.paidBy ∈ members ∧ (∀ n ∈ e.splitAmong, n ∈ members) ∧
      e.splitAmong ≠ []) :
    ∃ l, calculateFinalBalances members expenses = some l ∧
      (l.map Member.balance).sum = 0 := by
  refine ⟨_, calculateFinalBalances_eq members expenses hnd
    (fun e he => ⟨(hwf e he).1, (hwf e he).2.1⟩), ?_⟩
  rw [List.map_map]
  have hcomp : (Member.balance ∘ fun n =>
      (⟨n, totalPaidSpec expenses n, totalOwedCnt expenses n,
        totalPaidSpec expenses n - totalOwedCnt expenses n⟩ : Member)) =
      fun n => totalPaidSpec expenses n - totalOwedCnt expenses n := rfl
  rw [hcomp, sum_map_sub, sum_totalPaid members hnd expenses (fun e he => (hwf e he).1),
    sum_totalOwedCnt members hnd expenses
      (fun e he => ⟨(hwf e he).2.1, (hwf e he).2.2⟩)]
  ring

/-- Witness for C3 at the spec's Scenario A input. -/
theorem C3_zero_sum_witness :
    ∃ l, calculateFinalBalances ["alice", "bob", "carol"]
        [⟨90, "alice", ["alice", "bob", "carol"]⟩] = some l ∧
      (l.map Member.balance).sum = 0 :=
  C3_zero_sum _ _ (by decide) (by decide)

/-- Claim C5 counterexample: the input whose single expense has an empty
split list is malformed, yet the computation does not fail at all — there is
no ValidationError anywhere in the code — and silently returns a balance
mapping whose balances do not even net to zero. -/
theorem C5_counterexample :
    calculateFinalBalances ["a", "b"] [⟨10, "a", []⟩] =
      some [⟨"a", 10, 0, 10⟩, ⟨"b", 0, 0, 0⟩] ∧
    (([⟨"a", 10, 0, 10⟩, ⟨"b", 0, 0, 0⟩] : List Member).map Member.balance).sum ≠ 0 := by
  constructor
  · with_unfolding_all decide
  · with_unfolding_all decide

/-- Claim C5 amended: an expense referencing a member name absent from the
member set makes the Finalize-page computation abort with an uncaught
runtime lookup error (modelled by `none`) — not a `ValidationError` — while
an input whose member references are all known is accepted even when a split
list is empty, silently yielding a balance mapping; the remote-backend
variant (part_002) goes further and silently skips unknown references, as
the concrete third conjunct shows. -/
theorem C5_amended (members : List String) (expenses : List Expense) :
    ((∃ e ∈ expenses, e.paidBy ∉ members ∨ ∃ n ∈ e.splitAmong, n ∉ members) →
      calculateFinalBalances members expenses = none) ∧
    ((∀ e ∈ expenses, e.paidBy ∈ members ∧ ∀ n ∈ e.splitAmong, n ∈ members) →
      (calculateFinalBalances members expenses).isSome) ∧
    calculateMemberSummary [⟨10, "ghost", [⟨"ghost", 10⟩]⟩] [⟨"u1", some "Alice"⟩] "u1"
      = some ⟨0, 0⟩ := by
  have hdom : ∀ n : String, ((initSummary members) n).isSome ↔ n ∈ members := by
    intro n
    by_cases h : n ∈ members <;> simp [initSummary, h]
  refine ⟨?_, ?_, by with_unfolding_all decide⟩
  · intro hbad
    simp [calculateFinalBalances,
      applyExpenses_none members expenses (initSummary members) hdom hbad]
  · intro hgood
    obtain ⟨s', hrun, _⟩ :=
      applyExpenses_ok members expenses (initSummary members) hdom hgood
    simp [calculateFinalBalances, hrun]

/-- Witness for the amended C5: an unknown payer aborts the computation; a
known payer with an (even empty) known split is silently accepted. -/
theorem C5_amended_witness :
    calculateFinalBalances ["a"] [⟨5, "ghost", ["a"]⟩] = none ∧
      (calculateFinalBalances ["a"] [⟨5, "a", []⟩]).isSome :=
  ⟨(C5_amended ["a"] [⟨5, "ghost", ["a"]⟩]).1 (by decide),
   (C5_amended ["a"] [⟨5, "a", []⟩]).2.1 (by decide)⟩

/-- Claim C9: the balance computation is deterministic in its input — it
reads nothing but the snapshot passed to it, which the embedding reflects,
so two runs on equal snapshots return equal balance mappings. -/
theorem C9_deterministic (m1 m2 : List String) (e1 e2 : List Expense)
    (hm : m1 = m2) (he : e1 = e2) :
    calculateFinalBalances m1 e1 = calculateFinalBalances m2 e2 := by
  rw [hm, he]

/-- Witness for C9 at a concrete snapshot. -/
theorem C9_deterministic_witness :
    calculateFinalBalances ["a", "b"] [⟨7, "a", ["a", "b"]⟩] =
      calculateFinalBalances ["a", "b"] [⟨7, "a", ["a", "b"]⟩] :=
  C9_deterministic ["a", "b"] ["a", "b"] [⟨7, "a", ["a", "b"]⟩]
    [⟨7, "a", ["a", "b"]⟩] rfl rfl

/-! ### Lemmas about the settlement loop -/

lemma tolerance_pos : 0 < tolerance := by norm_num [tolerance]

lemma settleStep_def (d : Member) (ds : List Member) (c : Member)
    (cs : List Member) (acc : List Settlement) :
    settleStep d ds c cs acc =
      (if |d.balance + min |d.balance| c.balance| < tolerance then ds
        else { d with balance := d.balance + min |d.balance| c.balance } :: ds,
       if c.balance - min |d.balance| c.balance < tolerance then cs
        else { c with balance := c.balance - min |d.balance| c.balance } :: cs,
       acc ++ [⟨d.name, c.name, min |d.balance| c.balance⟩]) := rfl

lemma settleLoop_zero (st : List Member × List Member × List Settlement) :
    settleLoop 0 st = st := rfl

lemma settleLoop_nil_left (fuel : Nat) (cs : List Member) (ts : List Settlement) :
    settleLoop fuel ([], cs, ts) = ([], cs, ts) := by
  cases fuel <;> rfl

lemma settleLoop_nil_right (fuel : Nat) (ds : List Member) (ts : List Settlement) :
    settleLoop fuel (ds, [], ts) = (ds, [], ts) := by
  cases fuel <;> cases ds <;> rfl

lemma settleLoop_succ_cons (fuel : Nat) (d : Member) (ds : List Member)
    (c : Member) (cs : List Member) (ts : List Settlement) :
    settleLoop (fuel + 1) (d :: ds, c :: cs, ts) =
      settleLoop fuel (settleStep d ds c cs ts) := rfl

/-- The step's working-balance sign invariants: surviving debtors stay
strictly negative, surviving creditors strictly positive. -/
lemma settleStep_signs (d : Member) (ds : List Member) (c : Member)
    (cs : List Member) (acc : List Settlement)
    (hd : d.balance < 0) (hc : 0 < c.balance)
    (hds : ∀ x ∈ ds, x.balance < 0) (hcs : ∀ x ∈ cs, 0 < x.balance) :
    (∀ x ∈ (settleStep d ds c cs acc).1, x.balance < 0) ∧
    (∀ x ∈ (settleStep d ds c cs acc).2.1, 0 < x.balance) := by
  rw [settleStep_def]
  set a := min |d.balance| c.balance with ha
  have hle_d : a ≤ -d.balance := by
    rw [ha, abs_of_neg hd]
    exact min_le_left _ _
  have hle_c : a ≤ c.balance := min_le_right _ _
  constructor
  · intro x hx
    by_cases hrm : |d.balance + a| < tolerance
    · rw [if_pos hrm] at hx
      exact hds x hx
    · rw [if_neg hrm] at hx
      rcases List.mem_cons.mp hx with rfl | hx

      · show d.balance + a < 0
        have hnonpos : d.balance + a ≤ 0 := by linarith
        rcases lt_or_eq_of_le hnonpos with h | h
        · exact h
        · exfalso
          apply hrm
          rw [h, abs_zero]
          exact tolerance_pos
      · exact hds x hx
  · intro x hx
    by_cases hrm : c.balance - a < tolerance
    · rw [if_pos hrm] at hx
      exact hcs x hx
    · rw [if_neg hrm] at hx
      rcases List.mem_cons.mp hx with rfl | hx
      · show 0 < c.balance - a
        push_neg at hrm
        exact lt_of_lt_of_le tolerance_pos hrm
      · exact hcs x hx

/-- Each iteration settles at least one side exactly to zero, so at least
one of the two lists loses its head. -/
lemma settleStep_shrinks (d : Member) (ds : List Member) (c : Member)
    (cs : List Member) (acc : List Settlement)
    (hd : d.balance < 0) (hc : 0 < c.balance) :
    (settleStep d ds c cs acc).1.length + (settleStep d ds c cs acc).2.1.length ≤
      ds.length + cs.length + 1 := by
  rw [settleStep_def]
  rcases le_total |d.balance| c.balance with hmin | hmin
  · have ha : min |d.balance| c.balance = |d.balance| := min_eq_left hmin
    have hz : d.balance + min |d.balance| c.balance = 0 := by
      rw [ha, abs_of_neg hd]; ring
    rw [hz, abs_zero, if_pos tolerance_pos]
    by_cases hrm : c.balance - min |d.balance| c.balance < tolerance
    · rw [if_pos hrm]; simp
    · rw [if_neg hrm]; simp only [List.length_cons] at *; simp; omega
  · have ha : min |d.balance| c.balance = c.balance := min_eq_right hmin
    have hz : c.balance - min |d.balance| c.balance = 0 := by rw [ha]; ring
    rw [hz, if_pos tolerance_pos]
    by_cases hrm : |d.balance + min |d.balance| c.balance| < tolerance
    · rw [if_pos hrm]; simp
    · rw [if_neg hrm]; simp only [List.length_cons] at *; simp; omega

/-- Names appearing in the step's surviving lists were already in the
corresponding input lists. -/
lemma settleStep_names (d : Member) (ds : List Member) (c : Member)
    (cs : List Member) (acc : List Settlement) :
    (∀ x ∈ (settleStep d ds c cs acc).1, x.name ∈ (d :: ds).map Member.name) ∧
    (∀ x ∈ (settleStep d ds c cs acc).2.1, x.name ∈ (c :: cs).map Member.name) := by
  rw [settleStep_def]
  constructor
  · intro x hx
    by_cases hrm : |d.balance + min |d.balance| c.balance| < tolerance
    · rw [if_pos hrm] at hx
      exact List.mem_cons_of_mem _ (List.mem_map_of_mem Member.name hx)
    · rw [if_neg hrm] at hx
      rcases List.mem_cons.mp hx with rfl | hx
      · exact List.mem_cons_self _ _
      · exact List.mem_cons_of_mem _ (List.mem_map_of_mem Member.name hx)
  · intro x hx
    by_cases hrm : c.balance - min |d.balance| c.balance < tolerance
    · rw [if_pos hrm] at hx
      exact List.mem_cons_of_mem _ (List.mem_map_of_mem Member.name hx)
    · rw [if_neg hrm] at hx
      rcases List.mem_cons.mp hx with rfl | hx
      · exact List.mem_cons_self _ _
      · exact List.mem_cons_of_mem _ (List.mem_map_of_mem Member.name hx)

/-- Every transfer the loop emits beyond those already accumulated draws its
payer name from the current debtors and its receiver name from the current
creditors. -/
lemma settleLoop_source_names :
    ∀ (fuel : Nat) (ds cs : List Member) (ts : List Settlement),
      ∀ t ∈ (settleLoop fuel (ds, cs, ts)).2.2,
        t ∈ ts ∨ (t.from_ ∈ ds.map Member.name ∧ t.to_ ∈ cs.map Member.name) := by
  intro fuel
  induction fuel with
  | zero => intro ds cs ts t ht; rw [settleLoop_zero] at ht; exact Or.inl ht
  | succ fuel ih =>
    intro ds cs ts t ht
    match ds, cs with
    | [], cs => rw [settleLoop_nil_left] at ht; exact Or.inl ht
    | d :: ds, [] => rw [settleLoop_nil_right] at ht; exact Or.inl ht
    | d :: ds, c :: cs =>
      rw [settleLoop_succ_cons] at ht
      obtain ⟨hnd, hnc⟩ := settleStep_names d ds c cs ts
      have hstep := ih (settleStep d ds c cs ts).1 (settleStep d ds c cs ts).2.1
        (settleStep d ds c cs ts).2.2 t ht
      rcases hstep with hacc | ⟨hfrom, hto⟩
      · rw [settleStep_def] at hacc
        simp only [List.mem_append, List.mem_singleton] at hacc
        rcases hacc with h | h
        · exact Or.inl h
        · subst h
          exact Or.inr ⟨List.mem_map_of_mem Member.name (List.mem_cons_self d ds),
            List.mem_map_of_mem Member.name (List.mem_cons_self c cs)⟩
      · refine Or.inr ⟨?_, ?_⟩
        · rcases List.mem_map.mp hfrom with ⟨x, hx, hxn⟩
          exact hxn ▸ hnd x hx
        · rcases List.mem_map.mp hto with ⟨x, hx, hxn⟩
          exact hxn ▸ hnc x hx

/-- All transfers the loop emits beyond the accumulator are strictly
positive, as long as the working lists respect the sign invariants. -/
lemma settleLoop_pos :
    ∀ (fuel : Nat) (ds cs : List Member) (ts : List Settlement),
      (∀ x ∈ ds, x.balance < 0) → (∀ x ∈ cs, 0 < x.balance) →
      (∀ t ∈ ts, 0 < t.amount) →
      ∀ t ∈ (settleLoop fuel (ds, cs, ts)).2.2, 0 < t.amount := by
  intro fuel
  induction fuel with
  | zero => intro ds cs ts _ _ hts t ht; rw [settleLoop_zero] at ht; exact hts t ht
  | succ fuel ih =>
    intro ds cs ts hds hcs hts t ht
    match ds, cs with
    | [], cs => rw [settleLoop_nil_left] at ht; exact hts t ht
    | d :: ds, [] => rw [settleLoop_nil_right] at ht; exact hts t ht
    | d :: ds, c :: cs =>
      rw [settleLoop_succ_cons] at ht
      have hd := hds d (List.mem_cons_self d ds)
      have hc := hcs c (List.mem_cons_self c cs)
      have hpos : 0 < min |d.balance| c.balance :=
        lt_min (abs_pos.mpr (ne_of_lt hd)) hc
      obtain ⟨hsd, hsc⟩ := settleStep_signs d ds c cs ts hd hc
        (fun x hx => hds x (List.mem_cons_of_mem d hx))
        (fun x hx => hcs x (List.mem_cons_of_mem c hx))
      have hts1 : ∀ t' ∈ (settleStep d ds c cs ts).2.2, 0 < t'.amount := by
        intro t' ht'
        rw [settleStep_def] at ht'
        simp only [List.mem_append, List.mem_singleton] at ht'
        rcases ht' with h | h
        · exact hts t' h
        · subst h; exact hpos
      exact ih _ _ _ hsd hsc hts1 t ht

/-- Members of a duplicate-free-name list are determined by their name. -/
lemma name_inj {M : List Member} (hnd : (M.map Member.name).Nodup) :
    ∀ x ∈ M, ∀ y ∈ M, x.name = y.name → x = y :=
  fun x hx y hy hxy => List.inj_on_of_nodup_map hnd hx hy hxy

/-- A transfer the settlement computation emits takes its payer from the
strictly negative members and its receiver from the strictly positive
members. -/
lemma calcOpt_source (members : List Member) :
    ∀ t ∈ calculateOptimalSettlements members,
      (∃ m ∈ members, m.name = t.from_ ∧ m.balance < 0) ∧
      (∃ m ∈ members, m.name = t.to_ ∧ 0 < m.balance) := by
  intro t ht
  have h := settleLoop_source_names
    ((members.filter (fun m => m.balance < 0)).length +
      (members.filter (fun m => 0 < m.balance)).length)
    (members.filter (fun m => m.balance < 0))
    (members.filter (fun m => 0 < m.balance)) [] t ht
  rcases h with h | ⟨hfrom, hto⟩
  · simp at h
  · constructor
    · rcases List.mem_map.mp hfrom with ⟨x, hx, hxn⟩
      rw [List.mem_filter] at hx
      exact ⟨x, hx.1, hxn, by simpa using hx.2⟩
    · rcases List.mem_map.mp hto with ⟨x, hx, hxn⟩
      rw [List.mem_filter] at hx
      exact ⟨x, hx.1, hxn, by simpa using hx.2⟩

/-- With the fuel `calculateOptimalSettlements` passes, the loop runs until
one of the two lists is empty. -/
lemma settleLoop_reaches_empty :
    ∀ (fuel : Nat) (ds cs : List Member) (ts : List Settlement),
      ds.length + cs.length ≤ fuel →
      (∀ x ∈ ds, x.balance < 0) → (∀ x ∈ cs, 0 < x.balance) →
      (settleLoop fuel (ds, cs, ts)).1 = [] ∨ (settleLoop fuel (ds, cs, ts)).2.1 = [] := by
  intro fuel
  induction fuel with
  | zero =>
    intro ds cs ts hlen _ _
    rw [settleLoop_zero]
    left
    have : ds.length = 0 := by omega
    exact List.eq_nil_of_length_eq_zero this
  | succ fuel ih =>
    intro ds cs ts hlen hds hcs
    match ds, cs with
    | [], cs => rw [settleLoop_nil_left]; exact Or.inl rfl
    | d :: ds, [] => rw [settleLoop_nil_right]; exact Or.inr rfl
    | d :: ds, c :: cs =>
      rw [settleLoop_succ_cons]
      have hd := hds d (List.mem_cons_self d ds)
      have hc := hcs c (List.mem_cons_self c cs)
      obtain ⟨hsd, hsc⟩ := settleStep_signs d ds c cs ts hd hc
        (fun x hx => hds x (List.mem_cons_of_mem d hx))
        (fun x hx => hcs x (List.mem_cons_of_mem c hx))
      have hshr := settleStep_shrinks d ds c cs ts hd hc
      rcases hstep : settleStep d ds c cs ts with ⟨ds1, cs1, ts1⟩
      rw [hstep] at hsd hsc hshr
      dsimp only at hsd hsc hshr
      simp only [List.length_cons] at hlen
      exact ih ds1 cs1 ts1 (by omega) hsd hsc

/-! ### Claims about the settlement loop shape -/

/-- Claim C4: the settlement matching loop always terminates, whether or not
the balances sum to zero: each iteration of the while loop removes at least
one member from the debtors list or the creditors list (the working lists
always carry strictly negative, respectively strictly positive, balances,
which the sign filters establish for every input). -/
theorem C4_loop_shrinks (d : Member) (ds : List Member) (c : Member)
    (cs : List Member) (acc : List Settlement)
    (hd : d.balance < 0) (hc : 0 < c.balance) :
    (settleStep d ds c cs acc).1.length + (settleStep d ds c cs acc).2.1.length <
      (d :: ds).length + (c :: cs).length := by
  have := settleStep_shrinks d ds c cs acc hd hc
  simp only [List.length_cons]
  omega

/-- Witness for C4 at a concrete iteration state. -/
theorem C4_loop_shrinks_witness :
    (settleStep ⟨"a", 0, 1, -1⟩ [] ⟨"b", 1, 0, 1⟩ [] []).1.length +
        (settleStep ⟨"a", 0, 1, -1⟩ [] ⟨"b", 1, 0, 1⟩ [] []).2.1.length <
      ((⟨"a", 0, 1, -1⟩ : Member) :: []).length + ((⟨"b", 1, 0, 1⟩ : Member) :: []).length :=
  C4_loop_shrinks ⟨"a", 0, 1, -1⟩ [] ⟨"b", 1, 0, 1⟩ [] [] (by norm_num) (by norm_num)

/-- Claim C7: every emitted transfer has a strictly positive amount, for
every input balance list. -/
theorem C7_transfers_positive (members : List Member) :
    ∀ t ∈ calculateOptimalSettlements members, 0 < t.amount := by
  intro t ht
  refine settleLoop_pos _ _ _ _ ?_ ?_ (by simp) t ht
  · intro x hx
    rw [List.mem_filter] at hx
    simpa using hx.2
  · intro x hx
    rw [List.mem_filter] at hx
    simpa using hx.2

/-- Witness for C7: the single transfer of a two-member settlement. -/
theorem C7_transfers_positive_witness :
    0 < (⟨"a", "b", (30 : ℚ)⟩ : Settlement).amount :=
  C7_transfers_positive [⟨"a", 0, 30, -30⟩, ⟨"b", 30, 0, 30⟩] ⟨"a", "b", 30⟩
    (by with_unfolding_all decide)

/-- Claim C8: over distinct member names, no transfer pays its own payer:
the payer name belongs to a strictly negative member and the receiver name
to a strictly positive one, and these cannot be the same member. -/
theorem C8_no_self_transfer (members : List Member)
    (hnd : (members.map Member.name).Nodup) :
    ∀ t ∈ calculateOptimalSettlements members, t.from_ ≠ t.to_ := by
  intro t ht heq
  obtain ⟨⟨m1, hm1, hm1n, hm1b⟩, ⟨m2, hm2, hm2n, hm2b⟩⟩ := calcOpt_source members t ht
  have hm12 : m1 = m2 := name_inj hnd m1 hm1 m2 hm2 (by rw [hm1n, hm2n, heq])
  rw [hm12] at hm1b
  exact absurd hm1b (not_lt.mpr (le_of_lt hm2b))

/-- Witness for C8 at a two-member settlement. -/
theorem C8_no_self_transfer_witness :
    (⟨"a", "b", (30 : ℚ)⟩ : Settlement).from_ ≠ (⟨"a", "b", (30 : ℚ)⟩ : Settlement).to_ :=
  C8_no_self_transfer [⟨"a", 0, 30, -30⟩, ⟨"b", 30, 0, 30⟩]
    (by with_unfolding_all decide) ⟨"a", "b", 30⟩ (by with_unfolding_all decide)

/-- Claim C6 counterexample: member "a" has balance `-1/200`, within the
tolerance `1/100` of zero, yet it appears as the payer of the emitted
transfer (and "b", also within tolerance, as its receiver): the sign filter
admits sub-tolerance balances. -/
theorem C6_counterexample :
    |(⟨"a", 0, 1/200, -(1/200)⟩ : Member).balance| < tolerance ∧
    calculateOptimalSettlements
        [⟨"a", 0, 1/200, -(1/200)⟩, ⟨"b", 1/200, 0, 1/200⟩] =
      [⟨"a", "b", 1/200⟩] := by
  constructor
  · with_unfolding_all decide
  · with_unfolding_all decide

/-- Claim C6 amended: participation in transfers is filtered by balance
sign, not by the tolerance: over distinct names, a member whose balance is
exactly zero appears in no transfer, but a member with a nonzero balance
within the tolerance may participate (see the counterexample). -/
theorem C6_amended (members : List Member)
    (hnd : (members.map Member.name).Nodup) :
    ∀ m ∈ members, m.balance = 0 →
      ∀ t ∈ calculateOptimalSettlements members,
        t.from_ ≠ m.name ∧ t.to_ ≠ m.name := by
  intro m hm hz t ht
  obtain ⟨⟨m1, hm1, hm1n, hm1b⟩, ⟨m2, hm2, hm2n, hm2b⟩⟩ := calcOpt_source members t ht
  constructor
  · intro heq
    have hm1m : m1 = m := name_inj hnd m1 hm1 m hm (by rw [hm1n, heq])
    rw [hm1m, hz] at hm1b
    exact lt_irrefl 0 hm1b
  · intro heq
    have hm2m : m2 = m := name_inj hnd m2 hm2 m hm (by rw [hm2n, heq])
    rw [hm2m, hz] at hm2b
    exact lt_irrefl 0 hm2b

/-- Witness for the amended C6: the zero-balance member "c" appears in
neither side of the emitted transfer. -/
theorem C6_amended_witness :
    (⟨"a", "b", (30 : ℚ)⟩ : Settlement).from_ ≠ (⟨"c", 0, 0, 0⟩ : Member).name ∧
    (⟨"a", "b", (30 : ℚ)⟩ : Settlement).to_ ≠ (⟨"c", 0, 0, 0⟩ : Member).name :=
  C6_amended [⟨"a", 0, 30, -30⟩, ⟨"b", 30, 0, 30⟩, ⟨"c", 0, 0, 0⟩]
    (by with_unfolding_all decide) ⟨"c", 0, 0, 0⟩ (by with_unfolding_all decide)
    (by with_unfolding_all decide) ⟨"a", "b", 30⟩ (by with_unfolding_all decide)

/-! ### The settlement residual invariant -/

lemma netTransfers_nil (n : String) : netTransfers [] n = 0 := rfl

lemma netTransfers_append_single (ts : List Settlement) (t : Settlement) (n : String) :
    netTransfers (ts ++ [t]) n = netTransfers ts n +
      ((if t.from_ = n then t.amount else 0) - (if t.to_ = n then t.amount else 0)) := by
  simp [netTransfers, List.map_append, List.sum_append]

/-- The invariant holds on entry to the loop, for the sign-filtered lists and
no transfers. -/
lemma settleInv_init (M : List Member) (hndM : (M.map Member.name).Nodup) :
    SettleInv M (M.filter (fun m => m.balance < 0))
      (M.filter (fun m => 0 < m.balance)) [] := by
  have hmem_neg : ∀ e ∈ M.filter (fun m => m.balance < 0), e ∈ M ∧ e.balance < 0 := by
    intro e he
    rw [List.mem_filter] at he
    exact ⟨he.1, by simpa using he.2⟩
  have hmem_pos : ∀ e ∈ M.filter (fun m => 0 < m.balance), e ∈ M ∧ 0 < e.balance := by
    intro e he
    rw [List.mem_filter] at he
    exact ⟨he.1, by simpa using he.2⟩
  refine ⟨fun e he => (hmem_neg e he).2, fun e he => (hmem_pos e he).2, ?_, ?_, ?_, ?_, ?_⟩
  · rw [List.map_append]
    refine List.nodup_append.mpr ⟨?_, ?_, ?_⟩
    · exact List.Nodup.sublist (List.Sublist.map _ (List.filter_sublist M)) hndM
    · exact List.Nodup.sublist (List.Sublist.map _ (List.filter_sublist M)) hndM
    · intro x hx1 hx2
      rcases List.mem_map.mp hx1 with ⟨m1, hm1, hm1n⟩
      rcases List.mem_map.mp hx2 with ⟨m2, hm2, hm2n⟩
      have h12 : m1 = m2 := name_inj hndM m1 (hmem_neg m1 hm1).1 m2 (hmem_pos m2 hm2).1
        (hm1n.trans hm2n.symm)
      have := (hmem_neg m1 hm1).2
      rw [h12] at this
      exact absurd (hmem_pos m2 hm2).2 (not_lt.mpr (le_of_lt this))
  · intro e he
    rcases List.mem_append.mp he with h | h
    · exact List.mem_map_of_mem _ (hmem_neg e h).1
    · exact List.mem_map_of_mem _ (hmem_pos e h).1
  · intro t ht
    simp at ht
  · intro m hm hno
    rw [netTransfers_nil, add_zero]
    have hnneg : ¬ m.balance < 0 := by
      intro hneg
      refine hno m (List.mem_append_left _ ?_) rfl
      rw [List.mem_filter]
      exact ⟨hm, by simpa using hneg⟩
    have hnpos : ¬ 0 < m.balance := by
      intro hpos
      refine hno m (List.mem_append_right _ ?_) rfl
      rw [List.mem_filter]
      exact ⟨hm, by simpa using hpos⟩
    have : m.balance = 0 := le_antisymm (not_lt.mp hnpos) (not_lt.mp hnneg)
    rw [this, abs_zero]
    exact tolerance_pos
  · intro m hm e he hname
    have heM : e ∈ M := by
      rcases List.mem_append.mp he with h | h
      · exact (hmem_neg e h).1
      · exact (hmem_pos e h).1
    have : e = m := name_inj hndM e heM m hm hname
    rw [netTransfers_nil, add_zero, ← this]

/-- One loop iteration preserves the invariant (stated on the explicit
components of `settleStep`). -/
lemma settleInv_step (M : List Member) (d : Member) (ds : List Member)
    (c : Member) (cs : List Member) (ts : List Settlement)
    (hInv : SettleInv M (d :: ds) (c :: cs) ts) :
    SettleInv M
      (if |d.balance + min |d.balance| c.balance| < tolerance then ds
        else { d with balance := d.balance + min |d.balance| c.balance } :: ds)
      (if c.balance - min |d.balance| c.balance < tolerance then cs
        else { c with balance := c.balance - min |d.balance| c.balance } :: cs)
      (ts ++ [⟨d.name, c.name, min |d.balance| c.balance⟩]) := by
  obtain ⟨hds, hcs, hnd, hsub, hts, hout, hin⟩ := hInv
  have hd : d.balance < 0 := hds d (List.mem_cons_self d ds)
  have hc : 0 < c.balance := hcs c (List.mem_cons_self c cs)
  set a := min |d.balance| c.balance with ha
  have ha_le_d : a ≤ -d.balance := le_of_le_of_eq (min_le_left _ _) (abs_of_neg hd)
  have ha_le_c : a ≤ c.balance := min_le_right _ _
  have ha_pos : 0 < a := lt_min (abs_pos.mpr (ne_of_lt hd)) hc
  have hmem_d : d ∈ (d :: ds) ++ (c :: cs) :=
    List.mem_append_left _ (List.mem_cons_self d ds)
  have hmem_c : c ∈ (d :: ds) ++ (c :: cs) :=
    List.mem_append_right _ (List.mem_cons_self c cs)
  have hmem_ds : ∀ e ∈ ds, e ∈ (d :: ds) ++ (c :: cs) :=
    fun e he => List.mem_append_left _ (List.mem_cons_of_mem d he)
  have hmem_cs : ∀ e ∈ cs, e ∈ (d :: ds) ++ (c :: cs) :=
    fun e he => List.mem_append_right _ (List.mem_cons_of_mem c he)
  have hnd' : (((d :: ds).map Member.name) ++ ((c :: cs).map Member.name)).Nodup := by
    rw [← List.map_append]
    exact hnd
  have hdisj : List.Disjoint ((d :: ds).map Member.name) ((c :: cs).map Member.name) :=
    List.disjoint_of_nodup_append hnd'
  have hdc : d.name ≠ c.name := by
    intro h
    have h2 : d.name ∈ (c :: cs).map Member.name := by
      rw [h]
      exact List.mem_map_of_mem Member.name (List.mem_cons_self c cs)
    exact hdisj (List.mem_map_of_mem Member.name (List.mem_cons_self d ds)) h2
  have hname_d_tail : d.name ∉ (ds ++ c :: cs).map Member.name := by
    have hcons : ((d :: ds) ++ c :: cs).map Member.name =
        d.name :: (ds ++ c :: cs).map Member.name := by simp
    have h2 := hnd
    rw [hcons] at h2
    exact (List.nodup_cons.mp h2).1
  have hnd_tail : ((ds ++ c :: cs).map Member.name).Nodup := by
    have hcons : ((d :: ds) ++ c :: cs).map Member.name =
        d.name :: (ds ++ c :: cs).map Member.name := by simp
    have h2 := hnd
    rw [hcons] at h2
    exact (List.nodup_cons.mp h2).2
  have hname_ds : ∀ e ∈ ds, e.name ≠ d.name ∧ e.name ≠ c.name := by
    intro e he
    refine ⟨fun h => ?_, fun h => ?_⟩
    · apply hname_d_tail
      rw [← h]
      exact List.mem_map_of_mem _ (List.mem_append_left _ he)
    · have h1 : e.name ∈ (d :: ds).map Member.name :=
        List.mem_map_of_mem _ (List.mem_cons_of_mem d he)
      have h2 : e.name ∈ (c :: cs).map Member.name := by
        rw [h]
        exact List.mem_map_of_mem _ (List.mem_cons_self c cs)
      exact hdisj h1 h2
  have hname_cs : ∀ e ∈ cs, e.name ≠ d.name ∧ e.name ≠ c.name := by
    intro e he
    refine ⟨fun h => ?_, fun h => ?_⟩
    · have h1 : e.name ∈ (d :: ds).map Member.name := by
        rw [h]
        exact List.mem_map_of_mem _ (List.mem_cons_self d ds)
      have h2 : e.name ∈ (c :: cs).map Member.name :=
        List.mem_map_of_mem _ (List.mem_cons_of_mem c he)
      exact hdisj h1 h2
    · have hnd2 : ((c :: cs).map Member.name).Nodup := (List.nodup_append.mp hnd').2.1
      have hcn : c.name ∉ cs.map Member.name := by
        have hcons : (c :: cs).map Member.name = c.name :: cs.map Member.name := by simp
        rw [hcons] at hnd2
        exact (List.nodup_cons.mp hnd2).1
      apply hcn
      rw [← h]
      exact List.mem_map_of_mem _ he
  have hnet : ∀ n, netTransfers (ts ++ [⟨d.name, c.name, a⟩]) n =
      netTransfers ts n +
        ((if d.name = n then a else 0) - (if c.name = n then a else 0)) :=
    fun n => netTransfers_append_single ts ⟨d.name, c.name, a⟩ n
  have haux1 : ∀ m ∈ M, d.name = m.name →
      m.balance + netTransfers (ts ++ [⟨d.name, c.name, a⟩]) m.name = d.balance + a := by
    intro m hm hdm
    have hbase : m.balance + netTransfers ts m.name = d.balance := hin m hm d hmem_d hdm
    rw [hnet m.name, if_pos hdm,
      if_neg (fun h : c.name = m.name => hdc (hdm.trans h.symm))]
    linarith
  have haux2 : ∀ m ∈ M, c.name = m.name →
      m.balance + netTransfers (ts ++ [⟨d.name, c.name, a⟩]) m.name = c.balance - a := by
    intro m hm hcm
    have hbase : m.balance + netTransfers ts m.name = c.balance := hin m hm c hmem_c hcm
    rw [hnet m.name, if_neg (fun h : d.name = m.name => hdc (h.trans hcm.symm)),
      if_pos hcm]
    linarith
  have haux3 : ∀ m ∈ M, d.name ≠ m.name → c.name ≠ m.name →
      m.balance + netTransfers (ts ++ [⟨d.name, c.name, a⟩]) m.name =
        m.balance + netTransfers ts m.name := by
    intro m _ h1 h2
    rw [hnet m.name, if_neg h1, if_neg h2]
    ring
  have hts' : ∀ t ∈ ts ++ [⟨d.name, c.name, a⟩],
      t.from_ ∈ M.map Member.name ∧ t.to_ ∈ M.map Member.name := by
    intro t ht
    rcases List.mem_append.mp ht with h | h
    · exact hts t h
    · rw [List.mem_singleton] at h
      subst h
      exact ⟨hsub d hmem_d, hsub c hmem_c⟩
  have hds_tail : ∀ e ∈ ds, e.balance < 0 :=
    fun e he => hds e (List.mem_cons_of_mem d he)
  have hcs_tail : ∀ e ∈ cs, 0 < e.balance :=
    fun e he => hcs e (List.mem_cons_of_mem c he)
  have hd1_neg : ¬ |d.balance + a| < tolerance → d.balance + a < 0 := by
    intro hk
    rcases lt_or_eq_of_le (show d.balance + a ≤ 0 by linarith) with h | h
    · exact h
    · exact absurd (by rw [h, abs_zero]; exact tolerance_pos) hk
  have hc1_pos : ¬ c.balance - a < tolerance → 0 < c.balance - a :=
    fun hk => lt_of_lt_of_le tolerance_pos (not_lt.mp hk)
  by_cases hrd : |d.balance + a| < tolerance <;>
    by_cases hrc : c.balance - a < tolerance
  · -- both heads settled and removed
    rw [if_pos hrd, if_pos hrc]
    refine ⟨hds_tail, hcs_tail, ?_, ?_, hts', ?_, ?_⟩
    · have hsl : List.Sublist ((ds ++ cs).map Member.name)
          (((d :: ds) ++ (c :: cs)).map Member.name) := by
        rw [List.map_append, List.map_append]
        exact List.Sublist.append
          (by simp only [List.map_cons]; exact List.sublist_cons_self _ _)
          (by simp only [List.map_cons]; exact List.sublist_cons_self _ _)
      exact List.Nodup.sublist hsl hnd
    · intro e he
      rcases List.mem_append.mp he with h | h
      · exact hsub e (hmem_ds e h)
      · exact hsub e (hmem_cs e h)
    · intro m hm hno
      by_cases hdm : d.name = m.name
      · rw [haux1 m hm hdm]
        exact hrd
      · by_cases hcm : c.name = m.name
        · rw [haux2 m hm hcm, abs_of_nonneg (by linarith)]
          exact hrc
        · rw [haux3 m hm hdm hcm]
          apply hout m hm
          intro e he
          rcases List.mem_append.mp he with h | h
          · rcases List.mem_cons.mp h with rfl | h
            · exact hdm
            · exact hno e (List.mem_append_left _ h)
          · rcases List.mem_cons.mp h with rfl | h
            · exact hcm
            · exact hno e (List.mem_append_right _ h)
    · intro m hm e he hname
      rcases List.mem_append.mp he with h | h
      · obtain ⟨hed, hec⟩ := hname_ds e h
        rw [haux3 m hm (fun hcon => hed (hname.trans hcon.symm))
          (fun hcon => hec (hname.trans hcon.symm))]
        exact hin m hm e (hmem_ds e h) hname
      · obtain ⟨hed, hec⟩ := hname_cs e h
        rw [haux3 m hm (fun hcon => hed (hname.trans hcon.symm))
          (fun hcon => hec (hname.trans hcon.symm))]
        exact hin m hm e (hmem_cs e h) hname
  · -- debtor settled, creditor kept
    rw [if_pos hrd, if_neg hrc]
    refine ⟨hds_tail, ?_, ?_, ?_, hts', ?_, ?_⟩
    · intro e he
      rcases List.mem_cons.mp he with rfl | h
      · exact hc1_pos hrc
      · exact hcs_tail e h
    · have hmm : (ds ++ { c with balance := c.balance - a } :: cs).map Member.name =
          (ds ++ c :: cs).map Member.name := by simp
      rw [hmm]
      exact hnd_tail
    · intro e he
      rcases List.mem_append.mp he with h | h
      · exact hsub e (hmem_ds e h)
      · rcases List.mem_cons.mp h with rfl | h
        · exact hsub c hmem_c
        · exact hsub e (hmem_cs e h)
    · intro m hm hno
      by_cases hdm : d.name = m.name
      · rw [haux1 m hm hdm]
        exact hrd
      · have hcm : c.name ≠ m.name :=
          hno { c with balance := c.balance - a }
            (List.mem_append_right _ (List.mem_cons_self _ _))
        rw [haux3 m hm hdm hcm]
        apply hout m hm
        intro e he
        rcases List.mem_append.mp he with h | h
        · rcases List.mem_cons.mp h with rfl | h
          · exact hdm
          · exact hno e (List.mem_append_left _ h)
        · rcases List.mem_cons.mp h with rfl | h
          · exact hcm
          · exact hno e (List.mem_append_right _ (List.mem_cons_of_mem _ h))
    · intro m hm e he hname
      rcases List.mem_append.mp he with h | h
      · obtain ⟨hed, hec⟩ := hname_ds e h
        rw [haux3 m hm (fun hcon => hed (hname.trans hcon.symm))
          (fun hcon => hec (hname.trans hcon.symm))]
        exact hin m hm e (hmem_ds e h) hname
      · rcases List.mem_cons.mp h with rfl | h
        · exact haux2 m hm hname
        · obtain ⟨hed, hec⟩ := hname_cs e h
          rw [haux3 m hm (fun hcon => hed (hname.trans hcon.symm))
            (fun hcon => hec (hname.trans hcon.symm))]
          exact hin m hm e (hmem_cs e h) hname
  · -- debtor kept, creditor settled
    rw [if_neg hrd, if_pos hrc]
    refine ⟨?_, hcs_tail, ?_, ?_, hts', ?_, ?_⟩
    · intro e he
      rcases List.mem_cons.mp he with rfl | h
      · exact hd1_neg hrd
      · exact hds_tail e h
    · have hmm : (({ d with balance := d.balance + a } :: ds) ++ cs).map Member.name =
          ((d :: ds).map Member.name) ++ cs.map Member.name := by simp
      rw [hmm]
      refine List.Nodup.sublist (List.Sublist.append (List.Sublist.refl _) ?_) hnd'
      simp only [List.map_cons]
      exact List.sublist_cons_self _ _
    · intro e he
      rcases List.mem_append.mp he with h | h
      · rcases List.mem_cons.mp h with rfl | h
        · exact hsub d hmem_d
        · exact hsub e (hmem_ds e h)
      · exact hsub e (hmem_cs e h)
    · intro m hm hno
      have hdm : d.name ≠ m.name :=
        hno { d with balance := d.balance + a }
          (List.mem_append_left _ (List.mem_cons_self _ _))
      by_cases hcm : c.name = m.name
      · rw [haux2 m hm hcm, abs_of_nonneg (by linarith)]
        exact hrc
      · rw [haux3 m hm hdm hcm]
        apply hout m hm
        intro e he
        rcases List.mem_append.mp he with h | h
        · rcases List.mem_cons.mp h with rfl | h
          · exact hdm
          · exact hno e (List.mem_append_left _ (List.mem_cons_of_mem _ h))
        · rcases List.mem_cons.mp h with rfl | h
          · exact hcm
          · exact hno e (List.mem_append_right _ h)
    · intro m hm e he hname
      rcases List.mem_append.mp he with h | h
      · rcases List.mem_cons.mp h with rfl | h
        · exact haux1 m hm hname
        · obtain ⟨hed, hec⟩ := hname_ds e h
          rw [haux3 m hm (fun hcon => hed (hname.trans hcon.symm))
            (fun hcon => hec (hname.trans hcon.symm))]
          exact hin m hm e (hmem_ds e h) hname
      · obtain ⟨hed, hec⟩ := hname_cs e h
        rw [haux3 m hm (fun hcon => hed (hname.trans hcon.symm))
          (fun hcon => hec (hname.trans hcon.symm))]
        exact hin m hm e (hmem_cs e h) hname
  · -- both kept
    rw [if_neg hrd, if_neg hrc]
    refine ⟨?_, ?_, ?_, ?_, hts', ?_, ?_⟩
    · intro e he
      rcases List.mem_cons.mp he with rfl | h
      · exact hd1_neg hrd
      · exact hds_tail e h
    · intro e he
      rcases List.mem_cons.mp he with rfl | h
      · exact hc1_pos hrc
      · exact hcs_tail e h
    · have hmm : (({ d with balance := d.balance + a } :: ds) ++
          { c with balance := c.balance - a } :: cs).map Member.name =
          ((d :: ds) ++ (c :: cs)).map Member.name := by simp
      rw [hmm]
      exact hnd
    · intro e he
      rcases List.mem_append.mp he with h | h
      · rcases List.mem_cons.mp h with rfl | h
        · exact hsub d hmem_d
        · exact hsub e (hmem_ds e h)
      · rcases List.mem_cons.mp h with rfl | h
        · exact hsub c hmem_c
        · exact hsub e (hmem_cs e h)
    · intro m hm hno
      have hdm : d.name ≠ m.name :=
        hno { d with balance := d.balance + a }
          (List.mem_append_left _ (List.mem_cons_self _ _))
      have hcm : c.name ≠ m.name :=
        hno { c with balance := c.balance - a }
          (List.mem_append_right _ (List.mem_cons_self _ _))
      rw [haux3 m hm hdm hcm]
      apply hout m hm
      intro e he
      rcases List.mem_append.mp he with h | h
      · rcases List.mem_cons.mp h with rfl | h
        · exact hdm
        · exact hno e (List.mem_append_left _ (List.mem_cons_of_mem _ h))
      · rcases List.mem_cons.mp h with rfl | h
        · exact hcm
        · exact hno e (List.mem_append_right _ (List.mem_cons_of_mem _ h))
    · intro m hm e he hname
      rcases List.mem_append.mp he with h | h
      · rcases List.mem_cons.mp h with rfl | h
        · exact haux1 m hm hname
        · obtain ⟨hed, hec⟩ := hname_ds e h
          rw [haux3 m hm (fun hcon => hed (hname.trans hcon.symm))
            (fun hcon => hec (hname.trans hcon.symm))]
          exact hin m hm e (hmem_ds e h) hname
      · rcases List.mem_cons.mp h with rfl | h
        · exact haux2 m hm hname
        · obtain ⟨hed, hec⟩ := hname_cs e h
          rw [haux3 m hm (fun hcon => hed (hname.trans hcon.symm))
            (fun hcon => hec (hname.trans hcon.symm))]
          exact hin m hm e (hmem_cs e h) hname

/-- The loop preserves the invariant for any fuel. -/
lemma settleLoop_inv (M : List Member) :
    ∀ (fuel : Nat) (ds cs : List Member) (ts : List Settlement),
      SettleInv M ds cs ts →
      SettleInv M (settleLoop fuel (ds, cs, ts)).1 (settleLoop fuel (ds, cs, ts)).2.1
        (settleLoop fuel (ds, cs, ts)).2.2 := by
  intro fuel
  induction fuel with
  | zero => intro ds cs ts h; rw [settleLoop_zero]; exact h
  | succ fuel ih =>
    intro ds cs ts h
    match ds, cs with
    | [], cs => rw [settleLoop_nil_left]; exact h
    | d :: ds, [] => rw [settleLoop_nil_right]; exact h
    | d :: ds, c :: cs =>
      rw [settleLoop_succ_cons]
      have hstep : SettleInv M (settleStep d ds c cs ts).1
          (settleStep d ds c cs ts).2.1 (settleStep d ds c cs ts).2.2 := by
        rw [settleStep_def]
        exact settleInv_step M d ds c cs ts h
      rcases hs : settleStep d ds c cs ts with ⟨ds1, cs1, ts1⟩
      rw [hs] at hstep
      exact ih ds1 cs1 ts1 hstep

/-! ### Summation toolkit for the residual bound -/

lemma sum_map_zero {α : Type} : ∀ l : List α, (l.map (fun _ => (0 : ℚ))).sum = 0 := by
  intro l
  induction l with
  | nil => rfl
  | cons x rest ih => simp [ih]

lemma abs_sum_le {α : Type} (f : α → ℚ) :
    ∀ l : List α, |(l.map f).sum| ≤ (l.map (fun x => |f x|)).sum := by
  intro l
  induction l with
  | nil => simp
  | cons x rest ih =>
    simp only [List.map_cons, List.sum_cons]
    calc |f x + (rest.map f).sum| ≤ |f x| + |(rest.map f).sum| := abs_add _ _
      _ ≤ |f x| + (rest.map (fun x => |f x|)).sum := by linarith

lemma sum_lt_length_mul {α : Type} (f : α → ℚ) (cbound : ℚ) :
    ∀ l : List α, l ≠ [] → (∀ x ∈ l, f x < cbound) →
      (l.map f).sum < l.length * cbound := by
  intro l
  induction l with
  | nil => intro h; exact absurd rfl h
  | cons x rest ih =>
    intro _ hf
    simp only [List.map_cons, List.sum_cons, List.length_cons]
    rcases eq_or_ne rest [] with rfl | hne
    · have := hf x (List.mem_cons_self x [])
      simp only [List.map_nil, List.sum_nil, List.length_nil]
      push_cast
      linarith
    · have h1 := ih hne (fun y hy => hf y (List.mem_cons_of_mem x hy))
      have h2 := hf x (List.mem_cons_self x rest)
      push_cast
      push_cast at h1
      linarith

lemma sum_map_nonneg {α : Type} (f : α → ℚ) :
    ∀ l : List α, (∀ x ∈ l, 0 ≤ f x) → 0 ≤ (l.map f).sum := by
  intro l
  induction l with
  | nil => intro _; simp
  | cons x rest ih =>
    intro h
    simp only [List.map_cons, List.sum_cons]
    have := h x (List.mem_cons_self x rest)
    have := ih (fun y hy => h y (List.mem_cons_of_mem x hy))
    linarith

lemma sum_map_nonpos {α : Type} (f : α → ℚ) :
    ∀ l : List α, (∀ x ∈ l, f x ≤ 0) → (l.map f).sum ≤ 0 := by
  intro l
  induction l with
  | nil => intro _; simp
  | cons x rest ih =>
    intro h
    simp only [List.map_cons, List.sum_cons]
    have := h x (List.mem_cons_self x rest)
    have := ih (fun y hy => h y (List.mem_cons_of_mem x hy))
    linarith

lemma mem_le_sum_of_nonneg {α : Type} (f : α → ℚ) :
    ∀ l : List α, (∀ x ∈ l, 0 ≤ f x) → ∀ x ∈ l, f x ≤ (l.map f).sum := by
  intro l
  induction l with
  | nil => intro _ x hx; simp at hx
  | cons y rest ih =>
    intro hpos x hx
    simp only [List.map_cons, List.sum_cons]
    rcases List.mem_cons.mp hx with rfl | hx
    · have := sum_map_nonneg f rest (fun z hz => hpos z (List.mem_cons_of_mem x hz))
      linarith
    · have h1 := ih (fun z hz => hpos z (List.mem_cons_of_mem y hz)) x hx
      have h2 := hpos y (List.mem_cons_self y rest)
      linarith

lemma sum_le_mem_of_nonpos {α : Type} (f : α → ℚ) :
    ∀ l : List α, (∀ x ∈ l, f x ≤ 0) → ∀ x ∈ l, (l.map f).sum ≤ f x := by
  intro l
  induction l with
  | nil => intro _ x hx; simp at hx
  | cons y rest ih =>
    intro hneg x hx
    simp only [List.map_cons, List.sum_cons]
    rcases List.mem_cons.mp hx with rfl | hx
    · have := sum_map_nonpos f rest (fun z hz => hneg z (List.mem_cons_of_mem x hz))
      linarith
    · have h1 := ih (fun z hz => hneg z (List.mem_cons_of_mem y hz)) x hx
      have h2 := hneg y (List.mem_cons_self y rest)
      linarith

lemma sum_filter_split {α : Type} (p : α → Bool) (f : α → ℚ) :
    ∀ l : List α, (l.map f).sum =
      ((l.filter p).map f).sum + ((l.filter (fun x => !(p x))).map f).sum := by
  intro l
  induction l with
  | nil => simp
  | cons x rest ih =>
    cases hpx : p x <;> simp [List.filter_cons, hpx, ih] <;> ring

lemma sum_filter_or {α : Type} (p q : α → Bool) (f : α → ℚ) :
    ∀ l : List α, (∀ x ∈ l, ¬(p x = true ∧ q x = true)) →
      ((l.filter (fun x => p x || q x)).map f).sum =
        ((l.filter p).map f).sum + ((l.filter q).map f).sum := by
  intro l
  induction l with
  | nil => intro _; simp
  | cons x rest ih =>
    intro hdisj
    have hrest := ih (fun y hy => hdisj y (List.mem_cons_of_mem x hy))
    have hx := hdisj x (List.mem_cons_self x rest)
    cases hpx : p x <;> cases hqx : q x
    · simp [List.filter_cons, hpx, hqx, hrest]
    · simp [List.filter_cons, hpx, hqx, hrest]
      ring
    · simp [List.filter_cons, hpx, hqx, hrest]
      ring
    · exact absurd ⟨hpx, hqx⟩ hx

lemma sum_filter_name_single (v : Member → ℚ) :
    ∀ (M : List Member), (M.map Member.name).Nodup →
      ∀ (x : String) (b : ℚ), x ∈ M.map Member.name →
        (∀ m ∈ M, m.name = x → v m = b) →
        ((M.filter (fun m => m.name = x)).map v).sum = b := by
  intro M
  induction M with
  | nil => intro _ x b hx _; simp at hx
  | cons m0 rest ih =>
    intro hnd x b hx hval
    have hnd0 : m0.name ∉ rest.map Member.name := by
      rw [List.map_cons] at hnd
      exact (List.nodup_cons.mp hnd).1
    have hndr : (rest.map Member.name).Nodup := by
      rw [List.map_cons] at hnd
      exact (List.nodup_cons.mp hnd).2
    by_cases h : m0.name = x
    · have hnone : rest.filter (fun m => m.name = x) = [] := by
        rw [List.filter_eq_nil]
        intro e he hcon
        apply hnd0
        have hex : e.name = x := by simpa using hcon
        have hem : e.name = m0.name := by rw [hex, ← h]
        rw [← hem]
        exact List.mem_map_of_mem _ he
      simp only [List.filter_cons]
      rw [if_pos (by simpa using h), hnone]
      simp [hval m0 (List.mem_cons_self m0 rest) h]
    · have hxr : x ∈ rest.map Member.name := by
        rw [List.map_cons, List.mem_cons] at hx
        rcases hx with hx | hx
        · exact absurd hx.symm h
        · exact hx
      simp only [List.filter_cons]
      rw [if_neg (by simpa using h)]
      exact ih hndr x b hxr (fun m hm hmx => hval m (List.mem_cons_of_mem m0 hm) hmx)

/-- Pairing the members of `M` whose names occur in an entry list `es`
against the entries: their valuations sum to the entries' working
balances. -/
lemma sum_filter_mem_names (M : List Member) (v : Member → ℚ)
    (hndM : (M.map Member.name).Nodup) :
    ∀ es : List Member, (es.map Member.name).Nodup →
      (∀ e ∈ es, e.name ∈ M.map Member.name) →
      (∀ m ∈ M, ∀ e ∈ es, e.name = m.name → v m = e.balance) →
      ((M.filter (fun m => m.name ∈ es.map Member.name)).map v).sum =
        (es.map Member.balance).sum := by
  intro es
  induction es with
  | nil => intro _ _ _; simp
  | cons e rest ih =>
    intro hnd hsub hval
    have hnd0 : e.name ∉ rest.map Member.name := by
      rw [List.map_cons] at hnd
      exact (List.nodup_cons.mp hnd).1
    have hndr : (rest.map Member.name).Nodup := by
      rw [List.map_cons] at hnd
      exact (List.nodup_cons.mp hnd).2
    have hfx : M.filter (fun m => m.name ∈ (e :: rest).map Member.name) =
        M.filter (fun m => (m.name = e.name || m.name ∈ rest.map Member.name)) := by
      apply List.filter_congr
      intro m _
      simp [List.mem_cons]
    rw [hfx, sum_filter_or _ _ v M ?hdisj]
    case hdisj =>
      intro m _ ⟨h1, h2⟩
      apply hnd0
      have he : m.name = e.name := by simpa using h1
      have hr : m.name ∈ rest.map Member.name := by simpa using h2
      rw [← he]
      exact hr
    rw [sum_filter_name_single v M hndM e.name e.balance
      (hsub e (List.mem_cons_self e rest))
      (fun m hm hmx => hval m hm e (List.mem_cons_self e rest) hmx.symm)]
    rw [ih hndr (fun e' he' => hsub e' (List.mem_cons_of_mem e he'))
      (fun m hm e' he' => hval m hm e' (List.mem_cons_of_mem e he'))]
    simp

/-- Over distinct member names, a transfer list naming only members of `M`
nets to zero across `M`. -/
lemma sum_net_zero (M : List Member) (hndM : (M.map Member.name).Nodup) :
    ∀ ts : List Settlement,
      (∀ t ∈ ts, t.from_ ∈ M.map Member.name ∧ t.to_ ∈ M.map Member.name) →
      (M.map (fun m => netTransfers ts m.name)).sum = 0 := by
  intro ts
  induction ts with
  | nil =>
    intro _
    have : ∀ m ∈ M, netTransfers [] m.name = (0 : ℚ) := fun m _ => netTransfers_nil m.name
    rw [map_congr_mem M _ _ this, sum_map_zero]
  | cons t rest ih =>
    intro hts
    have hpt : ∀ m ∈ M, netTransfers (t :: rest) m.name =
        ((if t.from_ = m.name then t.amount else 0) -
          (if t.to_ = m.name then t.amount else 0)) + netTransfers rest m.name := by
      intro m _
      simp [netTransfers]
    rw [map_congr_mem M _ _ hpt, sum_map_add,
      ih (fun t' ht' => hts t' (List.mem_cons_of_mem t ht')), sum_map_sub]
    have hflip1 : ∀ m ∈ M, (if t.from_ = m.name then t.amount else 0) =
        (if m.name = t.from_ then t.amount else 0) := by
      intro m _
      by_cases h : t.from_ = m.name
      · rw [if_pos h, if_pos h.symm]
      · rw [if_neg h, if_neg (fun hc => h hc.symm)]
    have hflip2 : ∀ m ∈ M, (if t.to_ = m.name then t.amount else 0) =
        (if m.name = t.to_ then t.amount else 0) := by
      intro m _
      by_cases h : t.to_ = m.name
      · rw [if_pos h, if_pos h.symm]
      · rw [if_neg h, if_neg (fun hc => h hc.symm)]
    rw [map_congr_mem M _ _ hflip1, map_congr_mem M _ _ hflip2,
      sum_if_key Member.name t.amount M t.from_ hndM (hts t (List.mem_cons_self t rest)).1,
      sum_if_key Member.name t.amount M t.to_ hndM (hts t (List.mem_cons_self t rest)).2]
    ring

/-- The residual bound: when the balances sum to zero over distinct member
names, applying every emitted transfer (adding the amount to the payer's
balance, subtracting it from the receiver's) leaves every member's residual
within `n · 0.01` of zero, where `n` is the number of members. -/
lemma settlement_residual_bound (M : List Member)
    (hndM : (M.map Member.name).Nodup)
    (hsum : (M.map Member.balance).sum = 0) :
    ∀ m ∈ M, |m.balance + netTransfers (calculateOptimalSettlements M) m.name| <
      (M.length : ℚ) * tolerance := by
  intro m hm
  have hlen1 : (1 : ℚ) ≤ (M.length : ℚ) := by
    have : 0 < M.length := List.length_pos.mpr (List.ne_nil_of_mem hm)
    exact_mod_cast this
  have hInv0 := settleInv_init M hndM
  have hEmpty := settleLoop_reaches_empty
    ((M.filter (fun x => x.balance < 0)).length +
      (M.filter (fun x => 0 < x.balance)).length)
    (M.filter (fun x => x.balance < 0)) (M.filter (fun x => 0 < x.balance)) []
    (le_refl _) hInv0.1 hInv0.2.1
  have hInvF := settleLoop_inv M
    ((M.filter (fun x => x.balance < 0)).length +
      (M.filter (fun x => 0 < x.balance)).length)
    (M.filter (fun x => x.balance < 0)) (M.filter (fun x => 0 < x.balance)) [] hInv0
  rcases hres : settleLoop
      ((M.filter (fun x => x.balance < 0)).length +
        (M.filter (fun x => 0 < x.balance)).length)
      (M.filter (fun x => x.balance < 0), M.filter (fun x => 0 < x.balance), [])
    with ⟨dsF, csF, tsF⟩
  rw [hres] at hEmpty hInvF
  have hcalc : calculateOptimalSettlements M = tsF := by
    have hdef : calculateOptimalSettlements M =
        (settleLoop
          ((M.filter (fun x => x.balance < 0)).length +
            (M.filter (fun x => 0 < x.balance)).length)
          (M.filter (fun x => x.balance < 0), M.filter (fun x => 0 < x.balance), [])).2.2 :=
      rfl
    rw [hdef, hres]
  rw [hcalc]
  obtain ⟨hdsF, hcsF, hndF, hsubF, htsF, houtF, hinF⟩ := hInvF
  dsimp only at hdsF hcsF hndF hsubF htsF houtF hinF hEmpty
  set resid : Member → ℚ := fun x => x.balance + netTransfers tsF x.name with hresid_def
  have hgoal_eq : m.balance + netTransfers tsF m.name = resid m := rfl
  have htotal : (M.map resid).sum = 0 := by
    rw [hresid_def, sum_map_add Member.balance (fun x => netTransfers tsF x.name) M,
      hsum, sum_net_zero M hndM tsF htsF]
    ring
  rw [hgoal_eq]
  by_cases hmem : m.name ∈ (dsF ++ csF).map Member.name
  · rcases hEmpty with hdE | hcE
    · -- debtors exhausted: m is a leftover creditor
      subst hdE
      simp only [List.nil_append] at hmem hndF hsubF houtF hinF
      rcases List.mem_map.mp hmem with ⟨e, he, hen⟩
      have hresid : resid m = e.balance := hinF m hm e he hen
      have hce : 0 < e.balance := hcsF e he
      have hvals : ∀ x ∈ M, ∀ e' ∈ csF, e'.name = x.name → resid x = e'.balance :=
        fun x hx e' he' hn => hinF x hx e' he' hn
      have hsplit := sum_filter_split (fun x => x.name ∈ csF.map Member.name) resid M
      have hpair := sum_filter_mem_names M resid hndM csF hndF hsubF hvals
      have houtb : ∀ x ∈ M.filter (fun x => !(decide (x.name ∈ csF.map Member.name))),
          |resid x| < tolerance := by
        intro x hx
        rw [List.mem_filter] at hx
        apply houtF x hx.1
        intro e' he' hcon
        have hxmem : x.name ∈ csF.map Member.name := by
          rw [← hcon]
          exact List.mem_map_of_mem _ he'
        have hb := hx.2
        rw [Bool.not_eq_true', decide_eq_false_iff_not] at hb
        exact hb hxmem
      have hkey : (csF.map Member.balance).sum +
          ((M.filter (fun x => !(decide (x.name ∈ csF.map Member.name)))).map resid).sum
          = 0 := by
        rw [← hpair]
        linarith [hsplit, htotal]
      have hle : e.balance ≤ (csF.map Member.balance).sum :=
        mem_le_sum_of_nonneg Member.balance csF (fun x hx => le_of_lt (hcsF x hx)) e he
      have hOne : M.filter (fun x => !(decide (x.name ∈ csF.map Member.name))) ≠ [] := by
        intro hO
        rw [hO] at hkey
        simp at hkey
        linarith
      have habs := abs_sum_le resid
        (M.filter (fun x => !(decide (x.name ∈ csF.map Member.name))))
      have hlt2 : ((M.filter (fun x => !(decide (x.name ∈ csF.map Member.name)))).map
          (fun x => |resid x|)).sum <
          ((M.filter (fun x => !(decide (x.name ∈ csF.map Member.name)))).length : ℚ)
            * tolerance :=
        sum_lt_length_mul (fun x => |resid x|) tolerance _ hOne houtb
      have hlenO : ((M.filter
          (fun x => !(decide (x.name ∈ csF.map Member.name)))).length : ℚ) ≤
          (M.length : ℚ) := by
        exact_mod_cast List.length_filter_le _ M
      rw [hresid, abs_of_pos hce]
      calc e.balance ≤ (csF.map Member.balance).sum := hle
        _ = -(((M.filter (fun x => !(decide (x.name ∈ csF.map Member.name)))).map
            resid).sum) := by linarith
        _ ≤ |((M.filter (fun x => !(decide (x.name ∈ csF.map Member.name)))).map
            resid).sum| := neg_le_abs _
        _ ≤ ((M.filter (fun x => !(decide (x.name ∈ csF.map Member.name)))).map
            (fun x => |resid x|)).sum := habs
        _ < ((M.filter (fun x => !(decide (x.name ∈ csF.map Member.name)))).length : ℚ)
            * tolerance := hlt2
        _ ≤ (M.length : ℚ) * tolerance :=
          mul_le_mul_of_nonneg_right hlenO (le_of_lt tolerance_pos)
    · -- creditors exhausted: m is a leftover debtor
      subst hcE
      simp only [List.append_nil] at hmem hndF hsubF houtF hinF
      rcases List.mem_map.mp hmem with ⟨e, he, hen⟩
      have hresid : resid m = e.balance := hinF m hm e he hen
      have hde : e.balance < 0 := hdsF e he
      have hvals : ∀ x ∈ M, ∀ e' ∈ dsF, e'.name = x.name → resid x = e'.balance :=
        fun x hx e' he' hn => hinF x hx e' he' hn
      have hsplit := sum_filter_split (fun x => x.name ∈ dsF.map Member.name) resid M
      have hpair := sum_filter_mem_names M resid hndM dsF hndF hsubF hvals
      have houtb : ∀ x ∈ M.filter (fun x => !(decide (x.name ∈ dsF.map Member.name))),
          |resid x| < tolerance := by
        intro x hx
        rw [List.mem_filter] at hx
        apply houtF x hx.1
        intro e' he' hcon
        have hxmem : x.name ∈ dsF.map Member.name := by
          rw [← hcon]
          exact List.mem_map_of_mem _ he'
        have hb := hx.2
        rw [Bool.not_eq_true', decide_eq_false_iff_not] at hb
        exact hb hxmem
      have hkey : (dsF.map Member.balance).sum +
          ((M.filter (fun x => !(decide (x.name ∈ dsF.map Member.name)))).map resid).sum
          = 0 := by
        rw [← hpair]
        linarith [hsplit, htotal]
      have hle : (dsF.map Member.balance).sum ≤ e.balance :=
        sum_le_mem_of_nonpos Member.balance dsF (fun x hx => le_of_lt (hdsF x hx)) e he
      have hOne : M.filter (fun x => !(decide (x.name ∈ dsF.map Member.name))) ≠ [] := by
        intro hO
        rw [hO] at hkey
        simp at hkey
        linarith
      have houtb' : ∀ x ∈ M.filter (fun x => !(decide (x.name ∈ dsF.map Member.name))),
          resid x < tolerance :=
        fun x hx => lt_of_le_of_lt (le_abs_self _) (houtb x hx)
      have hlt2 : ((M.filter (fun x => !(decide (x.name ∈ dsF.map Member.name)))).map
          resid).sum <
          ((M.filter (fun x => !(decide (x.name ∈ dsF.map Member.name)))).length : ℚ)
            * tolerance :=
        sum_lt_length_mul resid tolerance _ hOne houtb'
      have hlenO : ((M.filter
          (fun x => !(decide (x.name ∈ dsF.map Member.name)))).length : ℚ) ≤
          (M.length : ℚ) := by
        exact_mod_cast List.length_filter_le _ M
      rw [hresid, abs_of_neg hde]
      calc -e.balance ≤ -((dsF.map Member.balance).sum) := by linarith
        _ = ((M.filter (fun x => !(decide (x.name ∈ dsF.map Member.name)))).map
            resid).sum := by linarith
        _ < ((M.filter (fun x => !(decide (x.name ∈ dsF.map Member.name)))).length : ℚ)
            * tolerance := hlt2
        _ ≤ (M.length : ℚ) * tolerance :=
          mul_le_mul_of_nonneg_right hlenO (le_of_lt tolerance_pos)
  · have hno : ∀ e ∈ dsF ++ csF, e.name ≠ m.name := by
      intro e he hcon
      exact hmem (by rw [← hcon]; exact List.mem_map_of_mem _ he)
    have hb := houtF m hm hno
    calc |resid m| < tolerance := hb
      _ = 1 * tolerance := (one_mul _).symm
      _ ≤ (M.length : ℚ) * tolerance :=
        mul_le_mul_of_nonneg_right hlen1 (le_of_lt tolerance_pos)

/-- Claim C2 counterexample, in two parts.  First: applying a transfer as the
claim words it — subtracting the amount from the payer's balance — drives the
payer away from zero, not toward it: with balances −30/+30 the emitted
transfer is ("a","b",30), and the literal application leaves "a" at −60.
Second: even with the orientation matching the code's own working balances,
the fixed 0.01 bound fails: with balances −1.009, −1.009, 1, 1, 0.018
(summing to zero) the loop pays both debtors into the first two creditors,
discarding two sub-tolerance residuals, and leaves "c3" with an untouched
balance of 0.018 > 0.01. -/
theorem C2_counterexample :
    ((([⟨"a", 0, 30, -30⟩, ⟨"b", 60, 30, 30⟩] : List Member).map Member.balance).sum = 0 ∧
      ¬ |litApply (calculateOptimalSettlements
          [⟨"a", 0, 30, -30⟩, ⟨"b", 60, 30, 30⟩]) "a" (-30)| < tolerance) ∧
    ((([⟨"d1", 0, 1009/1000, -(1009/1000)⟩, ⟨"d2", 0, 1009/1000, -(1009/1000)⟩,
        ⟨"c1", 1, 0, 1⟩, ⟨"c2", 1, 0, 1⟩, ⟨"c3", 9/500, 0, 9/500⟩] : List Member).map
          Member.balance).sum = 0 ∧
      ¬ |(9/500 : ℚ) + netTransfers (calculateOptimalSettlements
          [⟨"d1", 0, 1009/1000, -(1009/1000)⟩, ⟨"d2", 0, 1009/1000, -(1009/1000)⟩,
            ⟨"c1", 1, 0, 1⟩, ⟨"c2", 1, 0, 1⟩, ⟨"c3", 9/500, 0, 9/500⟩]) "c3"|
        < tolerance) := by
  refine ⟨⟨?_, ?_⟩, ?_, ?_⟩ <;> with_unfolding_all decide

/-- Claim C2 amended: applying every emitted transfer with the code's own
orientation — adding the amount to the payer's balance and subtracting it
from the receiver's — leaves, whenever the input balances sum to zero and
member names are distinct, every member's resulting balance within
`n · 0.01` of zero, where `n` is the number of members (the fixed bound
0.01 holds per removed entry, but the discarded sub-tolerance residuals can
accumulate on the final unmatched member). -/
theorem C2_amended (members : List Member)
    (hnd : (members.map Member.name).Nodup)
    (hsum : (members.map Member.balance).sum = 0) :
    ∀ m ∈ members,
      |m.balance + netTransfers (calculateOptimalSettlements members) m.name| <
        (members.length : ℚ) * tolerance :=
  settlement_residual_bound members hnd hsum

/-- Witness for the amended C2 at the spec's two-member scenario. -/
theorem C2_amended_witness :
    |(⟨"b", 60, 30, 30⟩ : Member).balance +
        netTransfers (calculateOptimalSettlements
          [⟨"a", 0, 30, -30⟩, ⟨"b", 60, 30, 30⟩]) (⟨"b", 60, 30, 30⟩ : Member).name| <
      (([⟨"a", 0, 30, -30⟩, ⟨"b", 60, 30, 30⟩] : List Member).length : ℚ) * tolerance :=
  C2_amended [⟨"a", 0, 30, -30⟩, ⟨"b", 60, 30, 30⟩] (by with_unfolding_all decide)
    (by with_unfolding_all decide) ⟨"b", 60, 30, 30⟩ (by with_unfolding_all decide)

/-! ### Frame property of the heap-level settlement -/

lemma copyAll_cons (h : Heap) (r : Nat) (rs : List Nat) :
    copyAll h (r :: rs) =
      ((alloc h (h.store r)).1 :: (copyAll (alloc h (h.store r)).2 rs).1,
        (copyAll (alloc h (h.store r)).2 rs).2) := by
  rcases hc : copyAll (alloc h (h.store r)).2 rs with ⟨rs1, h2⟩
  simp only [alloc] at hc
  simp [copyAll, alloc, hc]

lemma copyAll_props :
    ∀ (refs : List Nat) (h : Heap),
      h.next ≤ (copyAll h refs).2.next ∧
      (∀ r, r < h.next → (copyAll h refs).2.store r = h.store r) ∧
      (∀ r' ∈ (copyAll h refs).1, h.next ≤ r') := by
  intro refs
  induction refs with
  | nil =>
    intro h
    refine ⟨le_refl _, fun r _ => rfl, fun r' hr' => ?_⟩
    simp [copyAll] at hr'
  | cons r rs ih =>
    intro h
    obtain ⟨ih1, ih2, ih3⟩ := ih (alloc h (h.store r)).2
    have hnext : (alloc h (h.store r)).2.next = h.next + 1 := rfl
    rw [copyAll_cons]
    refine ⟨?_, ?_, ?_⟩
    · calc h.next ≤ h.next + 1 := Nat.le_succ _
        _ = (alloc h (h.store r)).2.next := hnext.symm
        _ ≤ (copyAll (alloc h (h.store r)).2 rs).2.next := ih1
    · intro r' hr'
      rw [ih2 r' (by rw [hnext]; omega)]
      show (if r' = h.next then h.store r else h.store r') = h.store r'
      rw [if_neg (by omega)]
    · intro r' hr'
      rcases List.mem_cons.mp hr' with rfl | hr'
      · exact le_refl _
      · calc h.next ≤ (alloc h (h.store r)).2.next := by rw [hnext]; omega
          _ ≤ r' := ih3 r' hr'

lemma mem_ite_le (n0 : Nat) (b : Prop) [Decidable b] (l1 l2 : List Nat)
    (h1 : ∀ r ∈ l1, n0 ≤ r) (h2 : ∀ r ∈ l2, n0 ≤ r) :
    ∀ r ∈ (if b then l1 else l2), n0 ≤ r := by
  by_cases hb : b
  · rw [if_pos hb]; exact h1
  · rw [if_neg hb]; exact h2

/-- The loop writes only to the references it holds: any reference below a
bound under all held references keeps its object. -/
lemma settleLoopH_frame (n0 : Nat) :
    ∀ (fuel : Nat) (h : Heap) (ds cs : List Nat) (acc : List Settlement),
      (∀ r ∈ ds, n0 ≤ r) → (∀ r ∈ cs, n0 ≤ r) →
      ∀ r, r < n0 → ((settleLoopH fuel h ds cs acc).2).store r = h.store r := by
  intro fuel
  induction fuel with
  | zero => intro h ds cs acc _ _ r _; rfl
  | succ fuel ih =>
    intro h ds cs acc hds hcs r hr
    match ds, cs with
    | [], cs => rfl
    | d :: ds, [] => rfl
    | dr :: ds, cr :: cs =>
      have hdr : n0 ≤ dr := hds dr (List.mem_cons_self dr ds)
      have hcr : n0 ≤ cr := hcs cr (List.mem_cons_self cr cs)
      simp only [settleLoopH]
      refine (ih _ _ _ _ ?_ ?_ r hr).trans ?_
      · exact mem_ite_le n0 _ ds (dr :: ds)
          (fun r' hr' => hds r' (List.mem_cons_of_mem dr hr')) hds
      · exact mem_ite_le n0 _ cs (cr :: cs)
          (fun r' hr' => hcs r' (List.mem_cons_of_mem cr hr')) hcs
      · have h1 : r ≠ dr := Nat.ne_of_lt (lt_of_lt_of_le hr hdr)
        have h2 : r ≠ cr := Nat.ne_of_lt (lt_of_lt_of_le hr hcr)
        simp [heapWrite, h1, h2]

/-- Claim C10: the heap-level settlement leaves every input member object
unchanged: the loop mutates only the `{...m}` shallow copies, which are
freshly allocated above every caller-held reference. -/
theorem C10_input_unchanged (h : Heap) (memberRefs : List Nat)
    (hvalid : ∀ r ∈ memberRefs, r < h.next) :
    ∀ r ∈ memberRefs,
      ((calculateOptimalSettlementsH h memberRefs).2).store r = h.store r := by
  intro r hr
  have hrlt : r < h.next := hvalid r hr
  obtain ⟨hnext1, hlow1, hrefs1⟩ :=
    copyAll_props (memberRefs.filter (fun r => (h.store r).balance < 0)) h
  obtain ⟨hnext2, hlow2, hrefs2⟩ :=
    copyAll_props
      (memberRefs.filter (fun r =>
        0 < (((copyAll h (memberRefs.filter (fun r => (h.store r).balance < 0))).2).store r).balance))
      (copyAll h (memberRefs.filter (fun r => (h.store r).balance < 0))).2
  have hframe := settleLoopH_frame h.next
    ((copyAll h (memberRefs.filter (fun r => (h.store r).balance < 0))).1.length +
      ((copyAll
        (copyAll h (memberRefs.filter (fun r => (h.store r).balance < 0))).2
        (memberRefs.filter (fun r =>
          0 < (((copyAll h (memberRefs.filter (fun r => (h.store r).balance < 0))).2).store r).balance))).1.length))
    (copyAll
      (copyAll h (memberRefs.filter (fun r => (h.store r).balance < 0))).2
      (memberRefs.filter (fun r =>
        0 < (((copyAll h (memberRefs.filter (fun r => (h.store r).balance < 0))).2).store r).balance))).2
    (copyAll h (memberRefs.filter (fun r => (h.store r).balance < 0))).1
    (copyAll
      (copyAll h (memberRefs.filter (fun r => (h.store r).balance < 0))).2
      (memberRefs.filter (fun r =>
        0 < (((copyAll h (memberRefs.filter (fun r => (h.store r).balance < 0))).2).store r).balance))).1
    [] hrefs1
    (fun r' hr' => le_trans hnext1 (hrefs2 r' hr')) r hrlt
  have hcalc : calculateOptimalSettlementsH h memberRefs =
      settleLoopH
        ((copyAll h (memberRefs.filter (fun r => (h.store r).balance < 0))).1.length +
          ((copyAll
            (copyAll h (memberRefs.filter (fun r => (h.store r).balance < 0))).2
            (memberRefs.filter (fun r =>
              0 < (((copyAll h (memberRefs.filter (fun r => (h.store r).balance < 0))).2).store r).balance))).1.length))
        (copyAll
          (copyAll h (memberRefs.filter (fun r => (h.store r).balance < 0))).2
          (memberRefs.filter (fun r =>
            0 < (((copyAll h (memberRefs.filter (fun r => (h.store r).balance < 0))).2).store r).balance))).2
        (copyAll h (memberRefs.filter (fun r => (h.store r).balance < 0))).1
        (copyAll
          (copyAll h (memberRefs.filter (fun r => (h.store r).balance < 0))).2
          (memberRefs.filter (fun r =>
            0 < (((copyAll h (memberRefs.filter (fun r => (h.store r).balance < 0))).2).store r).balance))).1
        [] := by
    simp only [calculateOptimalSettlementsH]
  rw [hcalc, hframe, hlow2 r (lt_of_lt_of_le hrlt hnext1), hlow1 r hrlt]

/-- Witness for C10 at a two-object heap. -/
theorem C10_input_unchanged_witness :
    ((calculateOptimalSettlementsH
        ⟨fun i => if i = 0 then ⟨"a", 1, 0, 1⟩ else ⟨"b", 0, 1, -1⟩, 2⟩ [0, 1]).2).store 0 =
      (⟨fun i => if i = 0 then ⟨"a", 1, 0, 1⟩ else ⟨"b", 0, 1, -1⟩, 2⟩ : Heap).store 0 :=
  C10_input_unchanged ⟨fun i => if i = 0 then ⟨"a", 1, 0, 1⟩ else ⟨"b", 0, 1, -1⟩, 2⟩
    [0, 1] (by decide) 0 (by decide)

end FellowFare
